import Mathlib

/-!
# The job table of minishell (`src/proclist.c`)

A shallow embedding of the singly linked process list and of the functions
working on it, followed by the properties proved about them.

Conventions of the embedding.
* A `proc_t` (pointer to a node, `NULL` for none) is the list of the nodes
  reached by following `next`; the table `proc_t *head` is that list.
* `int` values are integers; `id + 1` is taken without overflow (signed
  overflow is undefined in C).
* C strings are `String`s, `strlen` is `String.length`, `strcat` is `++`.
  The capacity of the destination buffer is not part of a string; it is
  handled separately through `MAX_NAME_SIZE`.
* `gettimeofday` is an input: every function reading the clock takes the
  value read as the argument `now`.
* Text written by `printf` is returned as a `String`.
-/

namespace Minishell

/-! ## Data model -/

/-- Modelled from the spec: the enumeration `state` declared in `proclist.h`, a header
that is not among the sources. The spec names three stored states and the sentinel
`UNDEFINED`; the C file uses exactly these four constants. -/
inductive state where
  | ACTIVE
  | SUSPENDED
  | DONE
  | UNDEFINED
  deriving DecidableEq, Repr

/-- The `struct timeval` of the C library: seconds and microseconds. -/
structure timeval where
  tv_sec : Int
  tv_usec : Int
  deriving DecidableEq, Repr

/-- The value left by `timerclear`. -/
def timerclear : timeval := ⟨0, 0⟩

/-- The C library comparison `timercmp(a, b, >)`: seconds decide unless they are
equal, in which case microseconds decide. -/
def timercmp_gt (a b : timeval) : Bool :=
  if a.tv_sec = b.tv_sec then decide (a.tv_usec > b.tv_usec) else decide (a.tv_sec > b.tv_sec)

/-- The fields of a `struct procList` node other than `next` (declared in
`proclist.h`; the fields are those assigned in `createProcess`). -/
structure procList where
  id : Int
  pid : Int
  state : Minishell.state
  commandName : String
  time : timeval
  deriving DecidableEq, Repr

/-- A node pointer together with everything reachable through `next`. -/
abbrev proc_t := List procList

/-- Maximum size of a command line kept in the process list. -/
def MAX_NAME_SIZE : Nat := 30

/-! ## Creation -/

/-- The table made by `initProcList`: `*head = NULL`. -/
def initProcList : proc_t := []

/-- The `for` loop of `createProcess` over the tokens after the first: a token is
appended, after a space, when `strlen(name) + strlen(c) + 4 < MAX_NAME_SIZE`; the
first token failing the test ends the loop (`break`). -/
def appendTokens : String → List String → String
  | name, [] => name
  | name, c :: cs =>
    if name.length + c.length + 4 < MAX_NAME_SIZE then appendTokens ((name ++ " ") ++ c) cs
    else name

/-- The string left in `name` by `createProcess`: `strcpy` of the first token, the
loop, then `strcat(name, " &")`. The token vector `char **commandName` is given as
its first token `c0` and the tokens `cs` that follow it up to the `NULL` entry. -/
def commandNameOf (c0 : String) (cs : List String) : String :=
  appendTokens c0 cs ++ " &"

/-- Node built by `createProcess`; `now` is the value stored by `gettimeofday`. -/
def createProcess (id pid : Int) (status : state) (c0 : String) (cs : List String)
    (now : timeval) : procList :=
  { id := id, pid := pid, state := status, commandName := commandNameOf c0 cs, time := now }

/-- The `while (current->next != NULL)` loop of `addProcess`, started at the node
`current` whose successors are `next`: the node at the end of the list. -/
def lastNode : procList → proc_t → procList
  | current, [] => current
  | _, n :: next => lastNode n next

/-- The function `addProcess`: the new table and the returned id. -/
def addProcess (head : proc_t) (pid : Int) (status : state) (c0 : String) (cs : List String)
    (now : timeval) : proc_t × Int :=
  match head with
  | [] => ([createProcess 1 pid status c0 cs now], 1)
  | first :: next =>
    let newID := (lastNode first next).id + 1
    (head ++ [createProcess newID pid status c0 cs now], newID)

/-- The counting loop of `lengthProcList`. -/
def lengthLoop : proc_t → Int → Int
  | [], n => n
  | _ :: next, n => lengthLoop next (n + 1)

/-- The function `lengthProcList`. -/
def lengthProcList (head : proc_t) : Int := lengthLoop head 0

/-! ## Lookup -/

/-- The function `getID`: id of the first node with the given pid, `0` if none. -/
def getID : proc_t → Int → Int
  | [], _ => 0
  | current :: next, pid => if current.pid = pid then current.id else getID next pid

/-- The function `getPID`: pid of the first node with the given id, `0` if none. -/
def getPID : proc_t → Int → Int
  | [], _ => 0
  | current :: next, id => if current.id = id then current.pid else getPID next id

/-- The search loop of `getProcessStatusByPID`. -/
def statusLoop : proc_t → Int → state
  | [], _ => state.UNDEFINED
  | current :: next, pid => if current.pid = pid then current.state else statusLoop next pid

/-- The function `getProcessStatusByPID`: the returned state, and the table after
the call (the function only reads through `head`). -/
def getProcessStatusByPID (head : proc_t) (pid : Int) : state × proc_t :=
  (statusLoop head pid, head)

/-! ## Removal -/

/-- The second half of `removeProcessByID`: from a node whose successors are the
argument, unlink the first successor carrying `id`, if there is one. The result is
the new chain of successors. -/
def removeAfter (id : Int) : proc_t → proc_t
  | [] => []
  | n :: next => if n.id ≠ id then n :: removeAfter id next else next

/-- The function `removeProcessByID`. -/
def removeProcessByID (head : proc_t) (id : Int) : proc_t :=
  match head with
  | [] => []
  | first :: next => if first.id = id then next else first :: removeAfter id next

/-- The function `removeProcessByPID`. -/
def removeProcessByPID (head : proc_t) (pid : Int) : proc_t :=
  removeProcessByID head (getID head pid)

/-! ## Status changes -/

/-- The function `setProcessStatusByPID`; `now` is the value stored by
`gettimeofday` in the node that is found. -/
def setProcessStatusByPID : proc_t → Int → state → timeval → proc_t
  | [], _, _, _ => []
  | current :: next, pid, status, now =>
    if current.pid = pid then { current with state := status, time := now } :: next
    else current :: setProcessStatusByPID next pid status now

/-- The function `setProcessStatusByID`. -/
def setProcessStatusByID (head : proc_t) (id : Int) (status : state) (now : timeval) : proc_t :=
  setProcessStatusByPID head (getPID head id) status now

/-! ## Recency -/

/-- The four local values of `getLastTwoProcesses`. -/
structure lastTwo where
  lastID : Int
  previousID : Int
  lastTime : timeval
  previousTime : timeval
  deriving DecidableEq, Repr

/-- One iteration of the loop of `getLastTwoProcesses` at node `current`. -/
def lastTwoStep (s : lastTwo) (current : procList) : lastTwo :=
  if timercmp_gt current.time s.lastTime then
    { previousTime := s.lastTime, previousID := s.lastID,
      lastTime := current.time, lastID := current.id }
  else if current.id ≠ s.lastID ∧ timercmp_gt current.time s.previousTime then
    { s with previousTime := current.time, previousID := current.id }
  else s

/-- The loop of `getLastTwoProcesses`. -/
def lastTwoLoop : proc_t → lastTwo → lastTwo
  | [], s => s
  | current :: next, s => lastTwoLoop next (lastTwoStep s current)

/-- The values with which `getLastTwoProcesses` starts. -/
def lastTwoInit : lastTwo :=
  { lastID := 0, previousID := 0, lastTime := timerclear, previousTime := timerclear }

/-- The function `getLastTwoProcesses`: the pair `(*lastID, *previousID)`. -/
def getLastTwoProcesses (head : proc_t) : Int × Int :=
  ((lastTwoLoop head lastTwoInit).lastID, (lastTwoLoop head lastTwoInit).previousID)

/-! ## Reports -/

/-- The text written by `printProcess`. A state other than the three tested ones
prints no label. -/
def printProcess (proc : procList) (lastID previousID : Int) : String :=
  ("[" ++ toString proc.id ++ "]")
  ++ (if proc.id = lastID then "+  " else if proc.id = previousID then "-  " else "   ")
  ++ (if proc.state = state.SUSPENDED then "Stopped\t\t      "
      else if proc.state = state.ACTIVE then "Running\t\t      "
      else if proc.state = state.DONE then "Done\t\t      "
      else "")
  ++ (proc.commandName ++ "\n")

/-- The printing loop of `printProcList`, with the text written so far. -/
def printLoop (lastID previousID : Int) : proc_t → String → String
  | [], out => out
  | current :: next, out => printLoop lastID previousID next (out ++ printProcess current lastID previousID)

/-- The text written by `printProcList`. -/
def printProcList (head : proc_t) : String :=
  match head with
  | [] => "\n"
  | _ :: _ =>
    printLoop (getLastTwoProcesses head).1 (getLastTwoProcesses head).2 head ""

/-! ## Reaping -/

/-- The loop of `updateProcList`. The first argument is the chain from `current`:
`next` is read before the removal, and `removeProcessByID` unlinks the first node
of the table carrying `current->id`, which lies at `current` or before it, so the
nodes still to be visited are those of the table at the start of the call. The
second argument is the table, the third the text written so far. -/
def updateLoop (lastID previousID : Int) : proc_t → proc_t → String → proc_t × String
  | [], head, out => (head, out)
  | current :: next, head, out =>
    if current.state = state.DONE then
      updateLoop lastID previousID next (removeProcessByID head current.id)
        (out ++ printProcess current lastID previousID)
    else updateLoop lastID previousID next head out

/-- The function `updateProcList`: the table after the call and the text written. -/
def updateProcList (head : proc_t) : proc_t × String :=
  updateLoop (getLastTwoProcesses head).1 (getLastTwoProcesses head).2 head head ""

/-! ## Reachable tables -/

/-- Tables obtained from the empty table by calls of the functions that change
it, with arbitrary arguments. -/
inductive Reachable : proc_t → Prop
  | init : Reachable initProcList
  | add {head : proc_t} (pid : Int) (status : state) (c0 : String) (cs : List String)
      (now : timeval) : Reachable head → Reachable (addProcess head pid status c0 cs now).1
  | removeByID {head : proc_t} (id : Int) : Reachable head → Reachable (removeProcessByID head id)
  | removeByPID {head : proc_t} (pid : Int) :
      Reachable head → Reachable (removeProcessByPID head pid)
  | setByPID {head : proc_t} (pid : Int) (status : state) (now : timeval) :
      Reachable head → Reachable (setProcessStatusByPID head pid status now)
  | setByID {head : proc_t} (id : Int) (status : state) (now : timeval) :
      Reachable head → Reachable (setProcessStatusByID head id status now)
  | update {head : proc_t} : Reachable head → Reachable (updateProcList head).1

/-! ## Sample tables -/

/-- Three jobs with distinct ids; the second was modified last, the third before it. -/
def sampleTable : proc_t :=
  [⟨1, 100, state.ACTIVE, "a &", ⟨5, 0⟩⟩, ⟨2, 101, state.ACTIVE, "b &", ⟨9, 0⟩⟩,
   ⟨3, 102, state.DONE, "c &", ⟨7, 0⟩⟩]

/-- The listing of the end-to-end scenario of the spec, before reaping: job 1
suspended at time 3000, job 2 running since time 2000. -/
def scenarioTable : proc_t :=
  [⟨1, 100, state.SUSPENDED, "sleep 100 &", ⟨3000, 0⟩⟩,
   ⟨2, 101, state.ACTIVE, "ls -la &", ⟨2000, 0⟩⟩]

/-- The same scenario once job 1 is done, at time 4000. -/
def scenarioDoneTable : proc_t :=
  [⟨1, 100, state.DONE, "sleep 100 &", ⟨4000, 0⟩⟩,
   ⟨2, 101, state.ACTIVE, "ls -la &", ⟨2000, 0⟩⟩]

/-- The table after the first two additions of the end-to-end scenario of the
spec. -/
def scenarioRun : proc_t :=
  (addProcess (addProcess initProcList 100 state.ACTIVE "sleep" ["100"] ⟨1000, 0⟩).1
    101 state.ACTIVE "ls" ["-la"] ⟨2000, 0⟩).1

/-- The table after two additions made with the same pid. -/
def samePidRun : proc_t :=
  (addProcess (addProcess initProcList 100 state.ACTIVE "sleep" ["100"] ⟨1000, 0⟩).1
    100 state.ACTIVE "ls" ["-la"] ⟨2000, 0⟩).1

/-- Four jobs of which the first, the third and the fourth share the latest
timestamp. -/
def tieTable : proc_t :=
  [⟨1, 100, state.ACTIVE, "a &", ⟨9, 0⟩⟩, ⟨2, 101, state.ACTIVE, "b &", ⟨5, 0⟩⟩,
   ⟨3, 102, state.ACTIVE, "c &", ⟨9, 0⟩⟩, ⟨4, 103, state.ACTIVE, "d &", ⟨9, 0⟩⟩]

/-- The table after one addition made with the status `UNDEFINED`. -/
def undefinedRun : proc_t :=
  (addProcess initProcList 100 state.UNDEFINED "sleep" ["100"] ⟨1000, 0⟩).1

/-- The table after two additions, the removal of the first job and a third
addition. -/
def removalRun : proc_t :=
  (addProcess (removeProcessByID scenarioRun 1) 102 state.ACTIVE "top" [] ⟨3000, 0⟩).1

/-! ## The report format as the spec words it -/

/-- The three-character marker field of a report line. -/
def markerOf (lastID previousID id : Int) : String :=
  if id = lastID then "+  " else if id = previousID then "-  " else "   "

/-- The state label of a report line. The spec names a label for the three stored
states only; no label is set down here for `UNDEFINED`. -/
def labelOf : state → String
  | state.ACTIVE => "Running\t\t      "
  | state.SUSPENDED => "Stopped\t\t      "
  | state.DONE => "Done\t\t      "
  | state.UNDEFINED => ""

/-- One report line: the id in decimal between brackets, the marker, the label, the
command name and a newline. -/
def reportLine (lastID previousID : Int) (j : procList) : String :=
  "[" ++ toString j.id ++ "]" ++ markerOf lastID previousID j.id ++ labelOf j.state
    ++ j.commandName ++ "\n"

/-! ## The display name as the spec words it -/

/-- The tokens joined by single spaces. -/
def spaceJoined (t0 : String) (ts : List String) : String :=
  String.intercalate " " (t0 :: ts)

/-- The test under which the token `t` is appended to the name built so far. -/
def fitsAfter (name t : String) : Prop :=
  name.length + t.length + 4 < 30

instance (name t : String) : Decidable (fitsAfter name t) := by
  unfold fitsAfter; infer_instance

/-! ## Predicates used in the statements -/

/-- The ids of the jobs of a table are pairwise distinct. -/
def distinctIDs (head : proc_t) : Prop :=
  head.Pairwise (fun a b => a.id ≠ b.id)

instance (head : proc_t) : Decidable (distinctIDs head) := by
  unfold distinctIDs; infer_instance

/-- The pids of the jobs of a table are pairwise distinct. -/
def distinctPIDs (head : proc_t) : Prop :=
  head.Pairwise (fun a b => a.pid ≠ b.pid)

instance (head : proc_t) : Decidable (distinctPIDs head) := by
  unfold distinctPIDs; infer_instance

/-! ## Runs of calls -/

/-- The arguments of one call of `addProcess` other than the table. -/
structure addCall where
  pid : Int
  status : state
  c0 : String
  cs : List String
  now : timeval

/-- Successive calls of `addProcess` with nothing in between: the table after the
last call and the ids returned, in the order of the calls. -/
def addMany : proc_t → List addCall → proc_t × List Int
  | head, [] => (head, [])
  | head, a :: as =>
    ((addMany (addProcess head a.pid a.status a.c0 a.cs a.now).1 as).1,
     (addProcess head a.pid a.status a.c0 a.cs a.now).2 ::
       (addMany (addProcess head a.pid a.status a.c0 a.cs a.now).1 as).2)

/-- Tables obtained from the empty table by calls of the functions that change it
in which no status argument is `UNDEFINED`; the other arguments are arbitrary. -/
inductive ReachableDefined : proc_t → Prop
  | init : ReachableDefined initProcList
  | add {head : proc_t} (pid : Int) (status : state) (c0 : String) (cs : List String)
      (now : timeval) : status ≠ state.UNDEFINED → ReachableDefined head →
      ReachableDefined (addProcess head pid status c0 cs now).1
  | removeByID {head : proc_t} (id : Int) :
      ReachableDefined head → ReachableDefined (removeProcessByID head id)
  | removeByPID {head : proc_t} (pid : Int) :
      ReachableDefined head → ReachableDefined (removeProcessByPID head pid)
  | setByPID {head : proc_t} (pid : Int) (status : state) (now : timeval) :
      status ≠ state.UNDEFINED → ReachableDefined head →
      ReachableDefined (setProcessStatusByPID head pid status now)
  | setByID {head : proc_t} (id : Int) (status : state) (now : timeval) :
      status ≠ state.UNDEFINED → ReachableDefined head →
      ReachableDefined (setProcessStatusByID head id status now)
  | update {head : proc_t} : ReachableDefined head → ReachableDefined (updateProcList head).1

/-! ## Basic facts -/

theorem removeAfter_eq (id : Int) (l : proc_t) : removeAfter id l = removeProcessByID l id := by
  induction l with
  | nil => rfl
  | cons n next ih =>
    by_cases h : n.id = id
    · simp [removeAfter, removeProcessByID, h]
    · simp [removeAfter, removeProcessByID, h]

theorem removeProcessByID_cons (p : procList) (l : proc_t) (id : Int) :
    removeProcessByID (p :: l) id = if p.id = id then l else p :: removeProcessByID l id := by
  show (if p.id = id then l else p :: removeAfter id l) = _
  rw [removeAfter_eq]

theorem removeProcessByID_append_of_absent (kept l : proc_t) (id : Int)
    (h : ∀ q ∈ kept, q.id ≠ id) :
    removeProcessByID (kept ++ l) id = kept ++ removeProcessByID l id := by
  induction kept with
  | nil => rfl
  | cons q kept ih =>
    have hq : q.id ≠ id := h q (List.mem_cons_self _ _)
    have hk : ∀ r ∈ kept, r.id ≠ id := fun r hr => h r (List.mem_cons_of_mem _ hr)
    rw [List.cons_append, removeProcessByID_cons, if_neg hq, ih hk, List.cons_append]

theorem lengthLoop_eq (l : proc_t) (n : Int) : lengthLoop l n = n + l.length := by
  induction l generalizing n with
  | nil => simp [lengthLoop]
  | cons p l ih =>
    rw [lengthLoop, ih]
    simp only [List.length_cons, Nat.cast_add, Nat.cast_one]
    ring

theorem lengthProcList_eq (head : proc_t) : lengthProcList head = head.length := by
  simp [lengthProcList, lengthLoop_eq]

theorem lastNode_eq (first : procList) (next : proc_t) :
    (first :: next).getLast? = some (lastNode first next) := by
  induction next generalizing first with
  | nil => rfl
  | cons n next ih =>
    rw [List.getLast?_cons_cons, ih, lastNode]

/-- Invariant of the loop of `updateProcList`: when the table is the jobs kept so
far followed by the chain still to visit, and its ids are pairwise distinct, the
loop ends with the kept jobs followed by the jobs of the chain that are not done. -/
theorem updateLoop_table (l p : Int) (cur kept : proc_t) (out : String)
    (h : distinctIDs (kept ++ cur)) :
    (updateLoop l p cur (kept ++ cur) out).1 =
      kept ++ cur.filter (fun j => decide (j.state ≠ state.DONE)) := by
  induction cur generalizing kept out with
  | nil => simp [updateLoop]
  | cons c next ih =>
    unfold distinctIDs at h
    rw [List.pairwise_append] at h
    obtain ⟨hk, hc, hkc⟩ := h
    rw [List.pairwise_cons] at hc
    by_cases hd : c.state = state.DONE
    · have habs : ∀ q ∈ kept, q.id ≠ c.id := fun q hq => hkc q hq c (List.mem_cons_self _ _)
      have hrem : removeProcessByID (kept ++ c :: next) c.id = kept ++ next := by
        rw [removeProcessByID_append_of_absent _ _ _ habs, removeProcessByID_cons, if_pos rfl]
      have hnext : distinctIDs (kept ++ next) := by
        unfold distinctIDs
        rw [List.pairwise_append]
        exact ⟨hk, hc.2, fun a ha b hb => hkc a ha b (List.mem_cons_of_mem _ hb)⟩
      rw [updateLoop, if_pos hd, hrem, ih kept _ hnext]
      simp [hd]
    · have hnext : distinctIDs ((kept ++ [c]) ++ next) := by
        unfold distinctIDs
        rw [List.pairwise_append, List.pairwise_append]
        refine ⟨⟨hk, List.pairwise_singleton _ _, ?_⟩, hc.2, ?_⟩
        · intro a ha b hb
          rw [List.mem_singleton] at hb
          subst hb
          exact hkc a ha b (List.mem_cons_self _ _)
        · intro a ha b hb
          rw [List.mem_append, List.mem_singleton] at ha
          rcases ha with ha | ha
          · exact hkc a ha b (List.mem_cons_of_mem _ hb)
          · subst ha
            exact hc.1 b hb
      have hrw : kept ++ c :: next = (kept ++ [c]) ++ next := by simp
      rw [updateLoop, if_neg hd, hrw, ih (kept ++ [c]) _ hnext]
      simp [hd]

theorem timercmp_gt_irrefl (a : timeval) : timercmp_gt a a = false := by
  simp [timercmp_gt]

theorem timercmp_gt_trans {a b c : timeval} (hab : timercmp_gt a b = true)
    (hbc : timercmp_gt b c = true) : timercmp_gt a c = true := by
  unfold timercmp_gt at *
  split_ifs at * <;> simp at * <;> omega

theorem timercmp_gt_of_gt_of_not_gt {a b c : timeval} (hab : timercmp_gt a b = true)
    (hcb : timercmp_gt c b = false) : timercmp_gt a c = true := by
  unfold timercmp_gt at *
  split_ifs at * <;> simp at * <;> omega

theorem timercmp_not_gt_of_gt {a b c : timeval} (hab : timercmp_gt a b = true)
    (hcb : timercmp_gt c b = false) : timercmp_gt c a = false := by
  unfold timercmp_gt at *
  split_ifs at * <;> simp at * <;> omega

theorem lastTwoLoop_append (l : proc_t) (a : procList) (s : lastTwo) :
    lastTwoLoop (l ++ [a]) s = lastTwoStep (lastTwoLoop l s) a := by
  induction l generalizing s with
  | nil => rfl
  | cons p l ih => simp [lastTwoLoop, ih]

theorem lastTwoStep_of_gt (s : lastTwo) (a : procList) (h : timercmp_gt a.time s.lastTime = true) :
    lastTwoStep s a = { previousTime := s.lastTime, previousID := s.lastID,
                        lastTime := a.time, lastID := a.id } := by
  simp [lastTwoStep, h]

theorem lastTwoStep_of_not_gt_of_gt (s : lastTwo) (a : procList)
    (h : timercmp_gt a.time s.lastTime = false) (hid : a.id ≠ s.lastID)
    (h2 : timercmp_gt a.time s.previousTime = true) :
    lastTwoStep s a = { s with previousTime := a.time, previousID := a.id } := by
  simp [lastTwoStep, h, hid, h2]

theorem lastTwoStep_of_not_gt_of_not_gt (s : lastTwo) (a : procList)
    (h : timercmp_gt a.time s.lastTime = false)
    (h2 : timercmp_gt a.time s.previousTime = false) :
    lastTwoStep s a = s := by
  simp [lastTwoStep, h, h2]

/-- Invariant of the scan of `getLastTwoProcesses` after a prefix `l` of a table with
pairwise distinct ids and timestamps above the cleared value. -/
theorem lastTwoLoop_inv (l : proc_t) (hd : distinctIDs l)
    (ht : ∀ p ∈ l, timercmp_gt p.time timerclear = true) :
    (l = [] → lastTwoLoop l lastTwoInit = lastTwoInit) ∧
    (l ≠ [] → ∃ p ∈ l, p.id = (lastTwoLoop l lastTwoInit).lastID ∧
        p.time = (lastTwoLoop l lastTwoInit).lastTime ∧
        ∀ q ∈ l, timercmp_gt q.time p.time = false) ∧
    (l.length < 2 → (lastTwoLoop l lastTwoInit).previousID = 0 ∧
        (lastTwoLoop l lastTwoInit).previousTime = timerclear) ∧
    (2 ≤ l.length → ∃ q ∈ l, q.id = (lastTwoLoop l lastTwoInit).previousID ∧
        q.time = (lastTwoLoop l lastTwoInit).previousTime ∧
        q.id ≠ (lastTwoLoop l lastTwoInit).lastID ∧
        ∀ r ∈ l, r.id ≠ (lastTwoLoop l lastTwoInit).lastID →
          timercmp_gt r.time q.time = false) := by
  induction l using List.reverseRecOn with
  | nil => simp [lastTwoLoop, lastTwoInit]
  | append_singleton l a ih =>
    unfold distinctIDs at hd
    rw [List.pairwise_append] at hd
    obtain ⟨hdl, -, hda⟩ := hd
    have hda : ∀ q ∈ l, q.id ≠ a.id := fun q hq => hda q hq a (List.mem_singleton_self a)
    have hta : timercmp_gt a.time timerclear = true := ht a (by simp)
    have htl : ∀ p ∈ l, timercmp_gt p.time timerclear = true := fun p hp => ht p (by simp [hp])
    obtain ⟨h0, h1, h2, h3⟩ := ih hdl htl
    rw [lastTwoLoop_append]
    generalize lastTwoLoop l lastTwoInit = s at h0 h1 h2 h3
    refine ⟨fun h => absurd h (by simp), fun _ => ?_, ?_, fun _ => ?_⟩
    · -- the most recent job
      rcases List.eq_nil_or_concat l with hl | ⟨l0, b, hl⟩
      · subst hl
        have hs := h0 rfl
        subst hs
        rw [lastTwoStep_of_gt _ _ (by simpa [lastTwoInit] using hta)]
        exact ⟨a, by simp, rfl, rfl, by simp [timercmp_gt_irrefl]⟩
      · have hne : l ≠ [] := by rw [hl]; simp
        obtain ⟨p, hp, hpid, hptime, hmax⟩ := h1 hne
        by_cases hgt : timercmp_gt a.time s.lastTime = true
        · rw [lastTwoStep_of_gt _ _ hgt]
          refine ⟨a, by simp, rfl, rfl, ?_⟩
          intro q hq
          rw [List.mem_append, List.mem_singleton] at hq
          rcases hq with hq | hq
          · exact timercmp_not_gt_of_gt (hptime ▸ hgt) (hmax q hq)
          · rw [hq]; exact timercmp_gt_irrefl _
        · have hgt : timercmp_gt a.time s.lastTime = false := by simpa using hgt
          have hkeep : (lastTwoStep s a).lastID = s.lastID ∧
              (lastTwoStep s a).lastTime = s.lastTime := by
            by_cases hc : a.id ≠ s.lastID ∧ timercmp_gt a.time s.previousTime = true
            · simp [lastTwoStep, hgt, hc]
            · simp only [lastTwoStep, hgt, if_neg hc]
              simp
          rw [hkeep.1, hkeep.2]
          refine ⟨p, by simp [hp], hpid, hptime, ?_⟩
          intro q hq
          rw [List.mem_append, List.mem_singleton] at hq
          rcases hq with hq | hq
          · exact hmax q hq
          · rw [hq, hptime]; exact hgt
    · -- fewer than two jobs
      intro hlen
      have hl : l = [] := by
        rw [List.length_append, List.length_singleton] at hlen
        exact List.length_eq_zero.mp (by omega)
      subst hl
      have hs := h0 rfl
      subst hs
      rw [lastTwoStep_of_gt _ _ (by simpa [lastTwoInit] using hta)]
      exact ⟨rfl, rfl⟩
    · -- the second most recent job
      have hne : l ≠ [] := by
        intro hl
        subst hl
        simp at *
      obtain ⟨p, hp, hpid, hptime, hmax⟩ := h1 hne
      by_cases hgt : timercmp_gt a.time s.lastTime = true
      · rw [lastTwoStep_of_gt _ _ hgt]
        refine ⟨p, by simp [hp], hpid, hptime, hda p hp, ?_⟩
        intro r hr hrid
        rw [List.mem_append, List.mem_singleton] at hr
        rcases hr with hr | hr
        · exact hmax r hr
        · exact absurd (by rw [hr]) hrid
      · have hgt : timercmp_gt a.time s.lastTime = false := by simpa using hgt
        have hid : a.id ≠ s.lastID := by
          rw [← hpid]
          exact fun h => hda p hp h.symm
        by_cases hgt2 : timercmp_gt a.time s.previousTime = true
        · rw [lastTwoStep_of_not_gt_of_gt _ _ hgt hid hgt2]
          refine ⟨a, by simp, rfl, rfl, hid, ?_⟩
          intro r hr hrid
          rw [List.mem_append, List.mem_singleton] at hr
          rcases hr with hr | hr
          · by_cases hlen : 2 ≤ l.length
            · obtain ⟨q, hq, hqid, hqtime, hqne, hqmax⟩ := h3 hlen
              exact timercmp_not_gt_of_gt (hqtime ▸ hgt2) (hqmax r hr hrid)
            · -- the prefix is the single most recent job
              exfalso
              have hlen1 : l.length = 1 := by
                have := List.length_pos.mpr hne
                omega
              obtain ⟨x, hx⟩ := List.length_eq_one.mp hlen1
              subst hx
              simp only [List.mem_singleton] at hr hp
              subst hr
              subst hp
              exact hrid hpid
          · rw [hr]; exact timercmp_gt_irrefl _
        · have hgt2 : timercmp_gt a.time s.previousTime = false := by simpa using hgt2
          rw [lastTwoStep_of_not_gt_of_not_gt _ _ hgt hgt2]
          have hlen : 2 ≤ l.length := by
            by_contra hlen
            have := (h2 (by omega)).2
            rw [this, hta] at hgt2
            exact Bool.noConfusion hgt2
          obtain ⟨q, hq, hqid, hqtime, hqne, hqmax⟩ := h3 hlen
          refine ⟨q, by simp [hq], hqid, hqtime, hqne, ?_⟩
          intro r hr hrid
          rw [List.mem_append, List.mem_singleton] at hr
          rcases hr with hr | hr
          · exact hqmax r hr hrid
          · rw [hr, hqtime]; exact hgt2

/-- With strictly increasing timestamps the scan ends on the last two jobs. -/
theorem getLastTwoProcesses_increasing (pre : proc_t) (a b : procList)
    (hd : distinctIDs (pre ++ [a, b]))
    (ht : ∀ p ∈ pre ++ [a, b], timercmp_gt p.time timerclear = true)
    (hinc : (pre ++ [a, b]).Chain' (fun x y => timercmp_gt y.time x.time = true)) :
    getLastTwoProcesses (pre ++ [a, b]) = (b.id, a.id) := by
  haveI : IsTrans procList (fun x y => timercmp_gt y.time x.time = true) :=
    ⟨fun x y z hxy hyz => timercmp_gt_trans hyz hxy⟩
  have hpw := List.chain'_iff_pairwise.mp hinc
  have happ : pre ++ [a, b] = (pre ++ [a]) ++ [b] := by simp
  rw [happ] at hd hpw ht
  rw [List.pairwise_append] at hpw
  obtain ⟨hpw1, -, hb⟩ := hpw
  unfold distinctIDs at hd
  rw [List.pairwise_append] at hd
  obtain ⟨hd1, -, -⟩ := hd
  have ht1 : ∀ p ∈ pre ++ [a], timercmp_gt p.time timerclear = true :=
    fun p hp => ht p (by simp at hp ⊢; tauto)
  obtain ⟨-, h1, -, -⟩ := lastTwoLoop_inv (pre ++ [a]) hd1 ht1
  obtain ⟨p, hp, hpid, hptime, hmax⟩ := h1 (by simp)
  have hpa : p = a := by
    rw [List.mem_append, List.mem_singleton] at hp
    rcases hp with hp | hp
    · rw [List.pairwise_append] at hpw1
      have h1 := hpw1.2.2 p hp a (List.mem_singleton_self a)
      have h2 := hmax a (by simp)
      rw [h1] at h2
      exact Bool.noConfusion h2
    · exact hp
  subst hpa
  have hgt : timercmp_gt b.time (lastTwoLoop (pre ++ [p]) lastTwoInit).lastTime = true := by
    rw [← hptime]
    exact hb p (by simp) b (List.mem_singleton_self b)
  unfold getLastTwoProcesses
  rw [happ, lastTwoLoop_append, lastTwoStep_of_gt _ _ hgt, hpid]

/-! ## Reaping: the table left by `updateProcList` -/

/-- C1: for a table whose ids are pairwise distinct, the table left by
`updateProcList` is the input table filtered by `state != DONE`: exactly the jobs
that were not done, in their original order, every field unchanged. -/
theorem updateProcList_table (head : proc_t) (h : distinctIDs head) :
    (updateProcList head).1 = head.filter (fun j => decide (j.state ≠ state.DONE)) := by
  have := updateLoop_table (getLastTwoProcesses head).1 (getLastTwoProcesses head).2 head [] ""
    (by simpa using h)
  simpa [updateProcList] using this

/-- Witness for C1: three jobs, the first and the last done. -/
theorem updateProcList_table_witness :
    distinctIDs
        [⟨1, 100, state.DONE, "a &", ⟨5, 0⟩⟩, ⟨2, 101, state.ACTIVE, "b &", ⟨6, 0⟩⟩,
         ⟨3, 102, state.DONE, "c &", ⟨7, 0⟩⟩] ∧
      (updateProcList
        [⟨1, 100, state.DONE, "a &", ⟨5, 0⟩⟩, ⟨2, 101, state.ACTIVE, "b &", ⟨6, 0⟩⟩,
         ⟨3, 102, state.DONE, "c &", ⟨7, 0⟩⟩]).1 =
        [⟨1, 100, state.DONE, "a &", ⟨5, 0⟩⟩, ⟨2, 101, state.ACTIVE, "b &", ⟨6, 0⟩⟩,
         ⟨3, 102, state.DONE, "c &", ⟨7, 0⟩⟩].filter (fun j => decide (j.state ≠ state.DONE)) :=
  ⟨by decide, updateProcList_table _ (by decide)⟩

/-! ## Recency: what `getLastTwoProcesses` returns -/

/-- C3: `addProcess` appends exactly one node at the tail, leaving the former
nodes and their order as they were, so that `lengthProcList` grows by one; the new
node carries the given pid and status; its id is 1 when the table was empty and
the id of the former tail node plus one otherwise; the returned value is the id
stored in the new node. The token vector is non-empty by its type (`c0`, `cs`).
After two additions and the removal of both jobs the next addition gets the id 1
again. -/
theorem addProcess_appends :
    (∀ (head : proc_t) (pid : Int) (status : state) (c0 : String) (cs : List String)
        (now : timeval),
      ∃ p : procList,
        (addProcess head pid status c0 cs now).1 = head ++ [p] ∧
        p.pid = pid ∧ p.state = status ∧ p.commandName = commandNameOf c0 cs ∧ p.time = now ∧
        (addProcess head pid status c0 cs now).2 = p.id ∧
        lengthProcList (addProcess head pid status c0 cs now).1 = lengthProcList head + 1 ∧
        (head = [] → p.id = 1) ∧
        (∀ q, head.getLast? = some q → p.id = q.id + 1)) ∧
    (addProcess (removeProcessByID (removeProcessByID (addProcess (addProcess initProcList 100
        state.ACTIVE "sleep" ["100"] ⟨1000, 0⟩).1 101 state.ACTIVE "ls" ["-la"] ⟨2000, 0⟩).1 1) 2)
        102 state.ACTIVE "top" [] ⟨3000, 0⟩).2 = 1 := by
  refine ⟨?_, by decide⟩
  intro head pid status c0 cs now
  cases head with
  | nil =>
    refine ⟨createProcess 1 pid status c0 cs now, ?_, rfl, rfl, rfl, rfl, rfl, ?_, ?_, ?_⟩
    · rfl
    · simp [addProcess, lengthProcList_eq]
    · intro _; rfl
    · intro q hq; simp at hq
  | cons first next =>
    refine ⟨createProcess ((lastNode first next).id + 1) pid status c0 cs now,
      ?_, rfl, rfl, rfl, rfl, rfl, ?_, ?_, ?_⟩
    · rfl
    · simp [addProcess, lengthProcList_eq]
    · intro h; simp at h
    · intro q hq
      rw [lastNode_eq] at hq
      cases hq
      rfl

/-- Witness for C3: a fourth job added to the sample table gets the id 4. -/
theorem addProcess_appends_witness :
    sampleTable.getLast? = some ⟨3, 102, state.DONE, "c &", ⟨7, 0⟩⟩ ∧
    ∃ p : procList,
      (addProcess sampleTable 103 state.ACTIVE "top" [] ⟨10, 0⟩).1 = sampleTable ++ [p] ∧
      (addProcess sampleTable 103 state.ACTIVE "top" [] ⟨10, 0⟩).2 = p.id ∧
      p.id = 3 + 1 := by
  obtain ⟨p, h1, -, -, -, -, h2, -, -, h3⟩ :=
    addProcess_appends.1 sampleTable 103 state.ACTIVE "top" [] ⟨10, 0⟩
  exact ⟨by decide, p, h1, h2, h3 ⟨3, 102, state.DONE, "c &", ⟨7, 0⟩⟩ (by decide)⟩

/-! ## Ids of the jobs present -/

theorem removeProcessByID_sublist (l : proc_t) (id : Int) :
    (removeProcessByID l id).Sublist l := by
  induction l with
  | nil => exact List.Sublist.refl _
  | cons p l ih =>
    rw [removeProcessByID_cons]
    split_ifs
    · exact List.sublist_cons_self p l
    · exact ih.cons₂ p

theorem updateLoop_sublist (l p : Int) (cur head : proc_t) (out : String) :
    (updateLoop l p cur head out).1.Sublist head := by
  induction cur generalizing head out with
  | nil => exact List.Sublist.refl _
  | cons c next ih =>
    rw [updateLoop]
    split_ifs
    · exact (ih _ _).trans (removeProcessByID_sublist head c.id)
    · exact ih _ _

theorem updateProcList_sublist (head : proc_t) : (updateProcList head).1.Sublist head :=
  updateLoop_sublist _ _ head head ""

theorem setProcessStatusByPID_ids (l : proc_t) (pid : Int) (status : state) (now : timeval) :
    (setProcessStatusByPID l pid status now).map (fun j => j.id) = l.map (fun j => j.id) := by
  induction l with
  | nil => rfl
  | cons c next ih =>
    rw [setProcessStatusByPID]
    split_ifs
    · rfl
    · rw [List.map_cons, List.map_cons, ih]

theorem le_lastNode (first : procList) (next : proc_t)
    (h : (first :: next).Pairwise (fun a b => a.id < b.id)) :
    ∀ j ∈ first :: next, j.id ≤ (lastNode first next).id := by
  induction next generalizing first with
  | nil =>
    intro j hj
    rw [List.mem_singleton] at hj
    rw [hj, lastNode]
  | cons n next ih =>
    intro j hj
    rw [List.pairwise_cons] at h
    rw [lastNode]
    rw [List.mem_cons] at hj
    rcases hj with hj | hj
    · have h1 : first.id < n.id := h.1 n (List.mem_cons_self _ _)
      have h2 := ih n h.2 n (List.mem_cons_self _ _)
      rw [hj]
      omega
    · exact ih n h.2 j hj

/-- The ids of a table are strictly increasing in table order and at least 1. -/
theorem increasing_of_reachable {head : proc_t} (h : Reachable head) :
    head.Pairwise (fun a b => a.id < b.id) ∧ ∀ j ∈ head, 1 ≤ j.id := by
  induction h with
  | init => exact ⟨List.Pairwise.nil, fun j hj => absurd hj (List.not_mem_nil j)⟩
  | @add head pid status c0 cs now _ ih =>
    obtain ⟨hs, hp⟩ := ih
    cases head with
    | nil =>
      refine ⟨List.pairwise_singleton _ _, ?_⟩
      intro j hj
      simp only [addProcess, List.mem_singleton] at hj
      rw [hj]
      exact le_refl _
    | cons first next =>
      have hle := le_lastNode first next hs
      have h1 : 1 ≤ (lastNode first next).id :=
        le_trans (hp first (List.mem_cons_self _ _)) (hle first (List.mem_cons_self _ _))
      constructor
      · show (first :: next ++ [createProcess ((lastNode first next).id + 1) pid status c0 cs now]).Pairwise _
        rw [List.pairwise_append]
        refine ⟨hs, List.pairwise_singleton _ _, ?_⟩
        intro a ha b hb
        rw [List.mem_singleton] at hb
        have := hle a ha
        rw [hb]
        show a.id < (lastNode first next).id + 1
        omega
      · intro j hj
        have hj : j ∈ first :: next ++ [createProcess ((lastNode first next).id + 1) pid status c0 cs now] := hj
        rw [List.mem_append, List.mem_singleton] at hj
        rcases hj with hj | hj
        · exact hp j hj
        · rw [hj]
          show 1 ≤ (lastNode first next).id + 1
          omega
  | @removeByID head id _ ih =>
    have hsub := removeProcessByID_sublist head id
    exact ⟨ih.1.sublist hsub, fun j hj => ih.2 j (hsub.subset hj)⟩
  | @removeByPID head pid _ ih =>
    have hsub := removeProcessByID_sublist head (getID head pid)
    exact ⟨ih.1.sublist hsub, fun j hj => ih.2 j (hsub.subset hj)⟩
  | @setByPID head pid status now _ ih =>
    have hids := setProcessStatusByPID_ids head pid status now
    constructor
    · have h1 : (head.map (fun j => j.id)).Pairwise (fun a b => a < b) :=
        List.pairwise_map.mpr ih.1
      rw [← hids] at h1
      exact List.pairwise_map.mp h1
    · intro j hj
      have hmem : j.id ∈ head.map (fun j => j.id) := by
        rw [← hids]
        exact List.mem_map_of_mem _ hj
      obtain ⟨k, hk, hkid⟩ := List.mem_map.mp hmem
      rw [← hkid]
      exact ih.2 k hk
  | @setByID head id status now _ ih =>
    have hids := setProcessStatusByPID_ids head (getPID head id) status now
    constructor
    · have h1 : (head.map (fun j => j.id)).Pairwise (fun a b => a < b) :=
        List.pairwise_map.mpr ih.1
      rw [← hids] at h1
      exact List.pairwise_map.mp h1
    · intro j hj
      have hmem : j.id ∈ head.map (fun j => j.id) := by
        rw [← hids]
        exact List.mem_map_of_mem _ hj
      obtain ⟨k, hk, hkid⟩ := List.mem_map.mp hmem
      rw [← hkid]
      exact ih.2 k hk
  | @update head _ ih =>
    have hsub := updateProcList_sublist head
    exact ⟨ih.1.sublist hsub, fun j hj => ih.2 j (hsub.subset hj)⟩

/-- C4: in every table reachable from the empty table by `addProcess`,
`removeProcessByID`, `removeProcessByPID`, `setProcessStatusByPID`,
`setProcessStatusByID` and `updateProcList`, the ids of the jobs present are
pairwise distinct and each is at least 1. -/
theorem reachable_ids_distinct_positive (head : proc_t) (h : Reachable head) :
    distinctIDs head ∧ ∀ j ∈ head, 1 ≤ j.id := by
  obtain ⟨hs, hp⟩ := increasing_of_reachable h
  exact ⟨hs.imp (fun hab => ne_of_lt hab), hp⟩

/-- Witness for C4: two additions, then the removal of the first job, then a third
addition. -/
theorem reachable_ids_distinct_positive_witness :
    Reachable (addProcess (removeProcessByID (addProcess (addProcess initProcList 100
        state.ACTIVE "sleep" ["100"] ⟨1000, 0⟩).1 101 state.ACTIVE "ls" ["-la"] ⟨2000, 0⟩).1 1)
        102 state.ACTIVE "top" [] ⟨3000, 0⟩).1 ∧
    (addProcess (removeProcessByID (addProcess (addProcess initProcList 100
        state.ACTIVE "sleep" ["100"] ⟨1000, 0⟩).1 101 state.ACTIVE "ls" ["-la"] ⟨2000, 0⟩).1 1)
        102 state.ACTIVE "top" [] ⟨3000, 0⟩).1.map (fun j => j.id) = [2, 3] ∧
    distinctIDs (addProcess (removeProcessByID (addProcess (addProcess initProcList 100
        state.ACTIVE "sleep" ["100"] ⟨1000, 0⟩).1 101 state.ACTIVE "ls" ["-la"] ⟨2000, 0⟩).1 1)
        102 state.ACTIVE "top" [] ⟨3000, 0⟩).1 :=
  ⟨Reachable.add _ _ _ _ _ (Reachable.removeByID _ (Reachable.add _ _ _ _ _
      (Reachable.add _ _ _ _ _ Reachable.init))),
    by decide,
    (reachable_ids_distinct_positive _ (Reachable.add _ _ _ _ _ (Reachable.removeByID _
      (Reachable.add _ _ _ _ _ (Reachable.add _ _ _ _ _ Reachable.init))))).1⟩

/-! ## Reports -/

theorem foldl_append_eq_join (l : List String) (acc : String) :
    l.foldl (fun r s => r ++ s) acc = acc ++ String.join l := by
  induction l generalizing acc with
  | nil => exact (String.append_empty acc).symm
  | cons a l ih =>
    show List.foldl (fun r s => r ++ s) (acc ++ a) l
      = acc ++ List.foldl (fun r s => r ++ s) ("" ++ a) l
    rw [ih (acc ++ a), ih ("" ++ a), String.empty_append, String.append_assoc]

theorem join_cons (a : String) (l : List String) : String.join (a :: l) = a ++ String.join l := by
  show List.foldl (fun r s => r ++ s) ("" ++ a) l = _
  rw [foldl_append_eq_join, String.empty_append]

theorem printProcess_eq_reportLine (j : procList) (lastID previousID : Int) :
    printProcess j lastID previousID = reportLine lastID previousID j := by
  unfold printProcess reportLine markerOf
  cases hst : j.state <;> simp [labelOf, String.append_assoc]

theorem printLoop_eq (lastID previousID : Int) (cur : proc_t) (out : String) :
    printLoop lastID previousID cur out
      = out ++ String.join (cur.map (reportLine lastID previousID)) := by
  induction cur generalizing out with
  | nil => exact (String.append_empty out).symm
  | cons c next ih =>
    rw [printLoop, ih, List.map_cons, join_cons, printProcess_eq_reportLine,
      String.append_assoc]

/-- C5: the text written by `printProcList` is the single string "\n" for the
empty table and otherwise the report lines of all jobs in table order, each being
the bracketed decimal id, the marker ("+  " for `lastID`, else "-  " for
`previousID`, else three spaces), the state label, the command name and a newline,
with `lastID` and `previousID` computed once by `getLastTwoProcesses` on the whole
table. The table of the scenario is rendered as the spec gives it. -/
theorem printProcList_format :
    (∀ head : proc_t, printProcList head =
      if head = [] then "\n"
      else String.join (head.map (reportLine (getLastTwoProcesses head).1
        (getLastTwoProcesses head).2))) ∧
    (∀ (lastID previousID : Int) (j : procList),
      reportLine lastID previousID j =
        "[" ++ toString j.id ++ "]"
        ++ (if j.id = lastID then "+  " else if j.id = previousID then "-  " else "   ")
        ++ labelOf j.state ++ j.commandName ++ "\n") ∧
    labelOf state.ACTIVE = "Running\t\t      " ∧
    labelOf state.SUSPENDED = "Stopped\t\t      " ∧
    labelOf state.DONE = "Done\t\t      " ∧
    printProcList scenarioTable
      = "[1]+  Stopped\t\t      sleep 100 &\n[2]-  Running\t\t      ls -la &\n" := by
  refine ⟨?_, fun _ _ _ => rfl, rfl, rfl, rfl, by decide⟩
  intro head
  cases head with
  | nil => rfl
  | cons c next =>
    rw [if_neg (List.cons_ne_nil c next)]
    show printLoop _ _ (c :: next) "" = _
    rw [printLoop_eq, String.empty_append]

/-! ## Reaping: the text written by `updateProcList` -/

theorem updateLoop_output (lastID previousID : Int) (cur head : proc_t) (out : String) :
    (updateLoop lastID previousID cur head out).2
      = out ++ String.join ((cur.filter (fun j => decide (j.state = state.DONE))).map
          (reportLine lastID previousID)) := by
  induction cur generalizing head out with
  | nil => exact (String.append_empty out).symm
  | cons c next ih =>
    rw [updateLoop]
    by_cases hd : c.state = state.DONE
    · rw [if_pos hd, ih, List.filter_cons_of_pos (by simpa using hd), List.map_cons, join_cons,
        printProcess_eq_reportLine, String.append_assoc]
    · rw [if_neg hd, ih, List.filter_cons_of_neg (by simpa using hd)]

/-- C6: the text written by `updateProcList` is the report lines, in table order,
of the jobs that are done, with the markers that `printProcList` uses on the table
as it is before the call (`getLastTwoProcesses` on the whole table, not computed
again after a removal); nothing is written when no job is done; in the scenario of
the spec the line of job 1 is written with its "+" marker and only job 2 is left.
The equality holds whether or not the ids are pairwise distinct. -/
theorem updateProcList_output :
    (∀ head : proc_t, (updateProcList head).2 =
      String.join ((head.filter (fun j => decide (j.state = state.DONE))).map
        (reportLine (getLastTwoProcesses head).1 (getLastTwoProcesses head).2))) ∧
    (∀ head : proc_t, (∀ j ∈ head, j.state ≠ state.DONE) → (updateProcList head).2 = "") ∧
    updateProcList scenarioDoneTable
      = ([⟨2, 101, state.ACTIVE, "ls -la &", ⟨2000, 0⟩⟩], "[1]+  Done\t\t      sleep 100 &\n") := by
  have hout : ∀ head : proc_t, (updateProcList head).2 =
      String.join ((head.filter (fun j => decide (j.state = state.DONE))).map
        (reportLine (getLastTwoProcesses head).1 (getLastTwoProcesses head).2)) := by
    intro head
    unfold updateProcList
    rw [updateLoop_output, String.empty_append]
  refine ⟨hout, ?_, by decide⟩
  intro head hnone
  have hfil : head.filter (fun j => decide (j.state = state.DONE)) = [] := by
    rw [List.filter_eq_nil_iff]
    intro j hj
    simpa using hnone j hj
  rw [hout, hfil]
  rfl

/-- Witness for C6: a table without a done job makes `updateProcList` write
nothing. -/
theorem updateProcList_output_witness :
    (∀ j ∈ scenarioTable, j.state ≠ state.DONE) ∧ (updateProcList scenarioTable).2 = "" :=
  ⟨by decide, updateProcList_output.2.1 scenarioTable (by decide)⟩

/-! ## The display name -/

theorem intercalate_go_concat (acc sep t : String) (l : List String) :
    String.intercalate.go acc sep (l ++ [t]) = String.intercalate.go acc sep l ++ sep ++ t := by
  induction l generalizing acc with
  | nil => rfl
  | cons a l ih =>
    show String.intercalate.go (acc ++ sep ++ a) sep (l ++ [t]) = _
    rw [ih]
    rfl

theorem spaceJoined_concat (t0 t : String) (ts : List String) :
    spaceJoined t0 (ts ++ [t]) = (spaceJoined t0 ts ++ " ") ++ t :=
  intercalate_go_concat t0 " " t ts

/-- Invariant of the loop of `createProcess`, started after the tokens `done` have
been appended to the first token. -/
theorem appendTokens_spec (t0 : String) (cs done : List String) :
    ∃ k, k ≤ cs.length ∧
      appendTokens (spaceJoined t0 done) cs = spaceJoined t0 (done ++ cs.take k) ∧
      (∀ i t, i < k → cs[i]? = some t → fitsAfter (spaceJoined t0 (done ++ cs.take i)) t) ∧
      (∀ t, cs[k]? = some t → ¬ fitsAfter (spaceJoined t0 (done ++ cs.take k)) t) := by
  induction cs generalizing done with
  | nil =>
    refine ⟨0, le_refl _, ?_, ?_, ?_⟩
    · simp [appendTokens]
    · intro i t hi; omega
    · intro t ht; simp at ht
  | cons c cs ih =>
    by_cases hfit : fitsAfter (spaceJoined t0 done) c
    · obtain ⟨k, hk, hname, hpass, hstop⟩ := ih (done ++ [c])
      refine ⟨k + 1, by simpa using hk, ?_, ?_, ?_⟩
      · have hfit2 : (spaceJoined t0 done).length + c.length + 4 < MAX_NAME_SIZE := hfit
        rw [appendTokens, if_pos hfit2, ← spaceJoined_concat, hname]
        simp
      · intro i t hi ht
        cases i with
        | zero =>
          simp only [List.getElem?_cons_zero, Option.some.injEq] at ht
          subst ht
          simpa using hfit
        | succ i =>
          simp only [List.getElem?_cons_succ] at ht
          have := hpass i t (by omega) ht
          simpa using this
      · intro t ht
        simp only [List.getElem?_cons_succ] at ht
        have := hstop t ht
        simpa using this
    · refine ⟨0, Nat.zero_le _, ?_, ?_, ?_⟩
      · have hfit2 : ¬ (spaceJoined t0 done).length + c.length + 4 < MAX_NAME_SIZE := hfit
        rw [appendTokens, if_neg hfit2]
        simp
      · intro i t hi; omega
      · intro t ht
        simp only [List.getElem?_cons_zero, Option.some.injEq] at ht
        subst ht
        simpa using hfit

theorem appendTokens_length_le (name : String) (cs : List String) :
    (appendTokens name cs).length ≤ max name.length 26 := by
  induction cs generalizing name with
  | nil => exact le_max_left _ _
  | cons c cs ih =>
    rw [appendTokens]
    split_ifs with h
    · have h1 := ih ((name ++ " ") ++ c)
      have h2 : ((name ++ " ") ++ c).length = name.length + 1 + c.length := by
        rw [String.length_append, String.length_append]
        rfl
      unfold MAX_NAME_SIZE at h
      rw [h2] at h1
      have h3 : max (name.length + 1 + c.length) 26 = 26 := max_eq_right (by omega)
      rw [h3] at h1
      exact le_trans h1 (le_max_right _ _)
    · exact le_max_left _ _

theorem le_appendTokens_length (name : String) (cs : List String) :
    name.length ≤ (appendTokens name cs).length := by
  induction cs generalizing name with
  | nil => exact le_refl _
  | cons c cs ih =>
    rw [appendTokens]
    split_ifs with h
    · have h1 := ih ((name ++ " ") ++ c)
      rw [String.length_append, String.length_append] at h1
      omega
    · exact le_refl _

/-- The name built by `createProcess` fits the buffer of `MAX_NAME_SIZE` bytes with
its terminator exactly when the first token has at most 27 characters: the loop
guards every later token, the first one is copied unguarded. -/
theorem commandNameOf_length_le_iff (c0 : String) (cs : List String) :
    (commandNameOf c0 cs).length ≤ MAX_NAME_SIZE - 1 ↔ c0.length ≤ 27 := by
  have h1 := appendTokens_length_le c0 cs
  have h2 := le_appendTokens_length c0 cs
  have h3 : (commandNameOf c0 cs).length = (appendTokens c0 cs).length + 2 := by
    unfold commandNameOf
    rw [String.length_append]
    rfl
  rw [h3]
  unfold MAX_NAME_SIZE
  constructor
  · intro h; omega
  · intro h
    have h4 : max c0.length 26 ≤ 27 := max_le h (by omega)
    omega

/-- C8 (failing input): for the single token of 28 characters the name built by
`createProcess` has 30 characters, one more than `MAX_NAME_SIZE - 1`, so that with
its terminator it does not fit the buffer of `MAX_NAME_SIZE` bytes. -/
theorem createProcess_name_exceeds_buffer :
    (createProcess 1 100 state.ACTIVE "aaaaaaaaaaaaaaaaaaaaaaaaaaaa" [] ⟨1000, 0⟩).commandName
      = "aaaaaaaaaaaaaaaaaaaaaaaaaaaa &" ∧
    (createProcess 1 100 state.ACTIVE "aaaaaaaaaaaaaaaaaaaaaaaaaaaa" []
      ⟨1000, 0⟩).commandName.length = 30 ∧
    ¬ ((createProcess 1 100 state.ACTIVE "aaaaaaaaaaaaaaaaaaaaaaaaaaaa" []
      ⟨1000, 0⟩).commandName.length ≤ MAX_NAME_SIZE - 1) := by
  refine ⟨by decide, by decide, by decide⟩

/-! ## Status by pid -/

/-- Either no job of the table carries the pid, or the table splits at the first
job carrying it. -/
theorem split_at_pid (head : proc_t) (pid : Int) :
    (∀ j ∈ head, j.pid ≠ pid) ∨
    ∃ (pre : proc_t) (j : procList) (post : proc_t),
      head = pre ++ j :: post ∧ (∀ q ∈ pre, q.pid ≠ pid) ∧ j.pid = pid := by
  induction head with
  | nil => exact Or.inl (fun j hj => absurd hj (List.not_mem_nil j))
  | cons c next ih =>
    by_cases hc : c.pid = pid
    · exact Or.inr ⟨[], c, next, rfl, fun q hq => absurd hq (List.not_mem_nil q), hc⟩
    · rcases ih with hnone | ⟨pre, j, post, hsplit, hpre, hj⟩
      · left
        intro j hj
        rw [List.mem_cons] at hj
        rcases hj with hj | hj
        · rw [hj]; exact hc
        · exact hnone j hj
      · right
        refine ⟨c :: pre, j, post, by rw [hsplit]; rfl, ?_, hj⟩
        intro q hq
        rw [List.mem_cons] at hq
        rcases hq with hq | hq
        · rw [hq]; exact hc
        · exact hpre q hq

theorem setProcessStatusByPID_of_absent (head : proc_t) (pid : Int) (status : state)
    (now : timeval) (h : ∀ j ∈ head, j.pid ≠ pid) :
    setProcessStatusByPID head pid status now = head := by
  induction head with
  | nil => rfl
  | cons c next ih =>
    rw [setProcessStatusByPID, if_neg (h c (List.mem_cons_self _ _)),
      ih (fun j hj => h j (List.mem_cons_of_mem _ hj))]

theorem setProcessStatusByPID_of_split (pre : proc_t) (j : procList) (post : proc_t) (pid : Int)
    (status : state) (now : timeval) (hpre : ∀ q ∈ pre, q.pid ≠ pid) (hj : j.pid = pid) :
    setProcessStatusByPID (pre ++ j :: post) pid status now
      = pre ++ { j with state := status, time := now } :: post := by
  induction pre with
  | nil => simp [setProcessStatusByPID, hj]
  | cons c pre ih =>
    rw [List.cons_append, setProcessStatusByPID, if_neg (hpre c (List.mem_cons_self _ _)),
      ih (fun q hq => hpre q (List.mem_cons_of_mem _ hq)), List.cons_append]

theorem statusLoop_of_absent (head : proc_t) (pid : Int) (h : ∀ j ∈ head, j.pid ≠ pid) :
    statusLoop head pid = state.UNDEFINED := by
  induction head with
  | nil => rfl
  | cons c next ih =>
    rw [statusLoop, if_neg (h c (List.mem_cons_self _ _)),
      ih (fun j hj => h j (List.mem_cons_of_mem _ hj))]

theorem statusLoop_of_split (pre : proc_t) (j : procList) (post : proc_t) (pid : Int)
    (hpre : ∀ q ∈ pre, q.pid ≠ pid) (hj : j.pid = pid) :
    statusLoop (pre ++ j :: post) pid = j.state := by
  induction pre with
  | nil => simp [statusLoop, hj]
  | cons c pre ih =>
    rw [List.cons_append, statusLoop, if_neg (hpre c (List.mem_cons_self _ _)),
      ih (fun q hq => hpre q (List.mem_cons_of_mem _ hq))]

/-- C9: if no job has the pid, `setProcessStatusByPID` leaves the table as it is;
otherwise the table splits at the first job `j` with that pid and the result is
the same table with `j` replaced by `j` with its state set to the given state and
its timestamp to the clock value, so that the number and order of the jobs, every
id, pid and command name, and the state and timestamp of every other job are as
before. -/
theorem setProcessStatusByPID_frame (head : proc_t) (pid : Int) (status : state)
    (now : timeval) :
    (((∀ j ∈ head, j.pid ≠ pid) ∧ setProcessStatusByPID head pid status now = head) ∨
      ∃ (pre : proc_t) (j : procList) (post : proc_t),
        head = pre ++ j :: post ∧ (∀ q ∈ pre, q.pid ≠ pid) ∧ j.pid = pid ∧
        setProcessStatusByPID head pid status now
          = pre ++ ⟨j.id, j.pid, status, j.commandName, now⟩ :: post) ∧
    (setProcessStatusByPID head pid status now).length = head.length ∧
    (setProcessStatusByPID head pid status now).map (fun j => (j.id, j.pid, j.commandName))
      = head.map (fun j => (j.id, j.pid, j.commandName)) := by
  rcases split_at_pid head pid with hnone | ⟨pre, j, post, hsplit, hpre, hj⟩
  · have h := setProcessStatusByPID_of_absent head pid status now hnone
    exact ⟨Or.inl ⟨hnone, h⟩, by rw [h], by rw [h]⟩
  · have h := setProcessStatusByPID_of_split pre j post pid status now hpre hj
    rw [← hsplit] at h
    refine ⟨Or.inr ⟨pre, j, post, hsplit, hpre, hj, h⟩, ?_, ?_⟩
    · rw [h, hsplit]
      simp
    · rw [h, hsplit]
      simp

/-- C10: `getProcessStatusByPID` returns `UNDEFINED` if no job of the table has the
pid and otherwise the state of the first job with that pid; the table after the
call is the table before it. -/
theorem getProcessStatusByPID_result (head : proc_t) (pid : Int) :
    (((∀ j ∈ head, j.pid ≠ pid) ∧ (getProcessStatusByPID head pid).1 = state.UNDEFINED) ∨
      ∃ (pre : proc_t) (j : procList) (post : proc_t),
        head = pre ++ j :: post ∧ (∀ q ∈ pre, q.pid ≠ pid) ∧ j.pid = pid ∧
        (getProcessStatusByPID head pid).1 = j.state) ∧
    (getProcessStatusByPID head pid).2 = head := by
  refine ⟨?_, rfl⟩
  rcases split_at_pid head pid with hnone | ⟨pre, j, post, hsplit, hpre, hj⟩
  · exact Or.inl ⟨hnone, statusLoop_of_absent head pid hnone⟩
  · refine Or.inr ⟨pre, j, post, hsplit, hpre, hj, ?_⟩
    have h := statusLoop_of_split pre j post pid hpre hj
    rw [← hsplit] at h
    exact h

/-- Either no job of the table carries the id, or the table splits at the first
job carrying it. -/
theorem split_at_id (head : proc_t) (id : Int) :
    (∀ j ∈ head, j.id ≠ id) ∨
    ∃ (pre : proc_t) (j : procList) (post : proc_t),
      head = pre ++ j :: post ∧ (∀ q ∈ pre, q.id ≠ id) ∧ j.id = id := by
  induction head with
  | nil => exact Or.inl (fun j hj => absurd hj (List.not_mem_nil j))
  | cons c next ih =>
    by_cases hc : c.id = id
    · exact Or.inr ⟨[], c, next, rfl, fun q hq => absurd hq (List.not_mem_nil q), hc⟩
    · rcases ih with hnone | ⟨pre, j, post, hsplit, hpre, hj⟩
      · left
        intro j hj
        rw [List.mem_cons] at hj
        rcases hj with hj | hj
        · rw [hj]; exact hc
        · exact hnone j hj
      · right
        refine ⟨c :: pre, j, post, by rw [hsplit]; rfl, ?_, hj⟩
        intro q hq
        rw [List.mem_cons] at hq
        rcases hq with hq | hq
        · rw [hq]; exact hc
        · exact hpre q hq

theorem removeProcessByID_of_absent (head : proc_t) (id : Int) (h : ∀ j ∈ head, j.id ≠ id) :
    removeProcessByID head id = head := by
  induction head with
  | nil => rfl
  | cons c next ih =>
    rw [removeProcessByID_cons, if_neg (h c (List.mem_cons_self _ _)),
      ih (fun j hj => h j (List.mem_cons_of_mem _ hj))]

theorem removeProcessByID_of_split (pre : proc_t) (j : procList) (post : proc_t) (id : Int)
    (hpre : ∀ q ∈ pre, q.id ≠ id) (hj : j.id = id) :
    removeProcessByID (pre ++ j :: post) id = pre ++ post := by
  rw [removeProcessByID_append_of_absent _ _ _ hpre, removeProcessByID_cons, if_pos hj]

theorem getID_of_absent (head : proc_t) (pid : Int) (h : ∀ j ∈ head, j.pid ≠ pid) :
    getID head pid = 0 := by
  induction head with
  | nil => rfl
  | cons c next ih =>
    rw [getID, if_neg (h c (List.mem_cons_self _ _)),
      ih (fun j hj => h j (List.mem_cons_of_mem _ hj))]

theorem getID_of_split (pre : proc_t) (j : procList) (post : proc_t) (pid : Int)
    (hpre : ∀ q ∈ pre, q.pid ≠ pid) (hj : j.pid = pid) :
    getID (pre ++ j :: post) pid = j.id := by
  induction pre with
  | nil => simp [getID, hj]
  | cons c pre ih =>
    rw [List.cons_append, getID, if_neg (hpre c (List.mem_cons_self _ _)),
      ih (fun q hq => hpre q (List.mem_cons_of_mem _ hq))]

theorem getPID_of_absent (head : proc_t) (id : Int) (h : ∀ j ∈ head, j.id ≠ id) :
    getPID head id = 0 := by
  induction head with
  | nil => rfl
  | cons c next ih =>
    rw [getPID, if_neg (h c (List.mem_cons_self _ _)),
      ih (fun j hj => h j (List.mem_cons_of_mem _ hj))]

theorem getPID_of_split (pre : proc_t) (j : procList) (post : proc_t) (id : Int)
    (hpre : ∀ q ∈ pre, q.id ≠ id) (hj : j.id = id) :
    getPID (pre ++ j :: post) id = j.pid := by
  induction pre with
  | nil => simp [getPID, hj]
  | cons c pre ih =>
    rw [List.cons_append, getPID, if_neg (hpre c (List.mem_cons_self _ _)),
      ih (fun q hq => hpre q (List.mem_cons_of_mem _ hq))]

/-- In a table with pairwise distinct ids split at a job, no other job carries the
id of that job. -/
theorem ids_ne_of_distinct (pre : proc_t) (j : procList) (post : proc_t)
    (hd : distinctIDs (pre ++ j :: post)) : ∀ q ∈ pre ++ post, q.id ≠ j.id := by
  unfold distinctIDs at hd
  rw [List.pairwise_append, List.pairwise_cons] at hd
  obtain ⟨-, ⟨hpost, -⟩, hcross⟩ := hd
  intro q hq
  rw [List.mem_append] at hq
  rcases hq with hq | hq
  · exact hcross q hq j (List.mem_cons_self _ _)
  · exact fun h => hpost q hq h.symm

/-- C11: in a table with pairwise distinct ids, `removeProcessByID` called with the
id of a job `j` of the table removes exactly that job: the table splits as
`pre ++ j :: post` and the result is `pre ++ post`, whether `pre` or `post` is
empty or not, so the other jobs are unchanged and in their order, none of them
carries the id, and `lengthProcList` is one less. -/
theorem removeProcessByID_removes (head : proc_t) (j : procList) (hd : distinctIDs head)
    (hj : j ∈ head) :
    ∃ (pre post : proc_t), head = pre ++ j :: post ∧
      removeProcessByID head j.id = pre ++ post ∧
      (∀ q ∈ removeProcessByID head j.id, q.id ≠ j.id) ∧
      lengthProcList (removeProcessByID head j.id) = lengthProcList head - 1 := by
  obtain ⟨pre, post, hsplit⟩ := List.append_of_mem hj
  subst hsplit
  have hne := ids_ne_of_distinct pre j post hd
  have hrem : removeProcessByID (pre ++ j :: post) j.id = pre ++ post :=
    removeProcessByID_of_split pre j post j.id
      (fun q hq => hne q (List.mem_append_left _ hq)) rfl
  refine ⟨pre, post, rfl, hrem, ?_, ?_⟩
  · rw [hrem]; exact hne
  · rw [hrem, lengthProcList_eq, lengthProcList_eq]
    simp only [List.length_append, List.length_cons, Nat.cast_add, Nat.cast_one]
    ring

/-- Witness for C11: the head, the interior job and the tail of the sample table. -/
theorem removeProcessByID_removes_witness :
    distinctIDs sampleTable ∧
    (∃ (pre post : proc_t),
      sampleTable = pre ++ (⟨2, 101, state.ACTIVE, "b &", ⟨9, 0⟩⟩ : procList) :: post ∧
      removeProcessByID sampleTable 2 = pre ++ post ∧
      (∀ q ∈ removeProcessByID sampleTable 2, q.id ≠ 2) ∧
      lengthProcList (removeProcessByID sampleTable 2) = lengthProcList sampleTable - 1) ∧
    (removeProcessByID sampleTable 1).map (fun q => q.id) = [2, 3] ∧
    (removeProcessByID sampleTable 2).map (fun q => q.id) = [1, 3] ∧
    (removeProcessByID sampleTable 3).map (fun q => q.id) = [1, 2] :=
  ⟨by decide,
    removeProcessByID_removes sampleTable ⟨2, 101, state.ACTIVE, "b &", ⟨9, 0⟩⟩ (by decide)
      (by decide),
    by decide, by decide, by decide⟩

/-- C12: `removeProcessByID` called with an id that no job carries leaves the table,
and so `lengthProcList`, as it is; in a table whose ids are all at least 1,
`removeProcessByPID` called with a pid that no job carries leaves the table as it
is, `getID` returning the sentinel 0, which no job carries. -/
theorem remove_absent_noop (head : proc_t) :
    (∀ id : Int, (∀ j ∈ head, j.id ≠ id) →
      removeProcessByID head id = head ∧
      lengthProcList (removeProcessByID head id) = lengthProcList head) ∧
    ((∀ j ∈ head, 1 ≤ j.id) → ∀ pid : Int, (∀ j ∈ head, j.pid ≠ pid) →
      getID head pid = 0 ∧ (∀ j ∈ head, j.id ≠ 0) ∧
      removeProcessByPID head pid = head ∧
      lengthProcList (removeProcessByPID head pid) = lengthProcList head) := by
  constructor
  · intro id hid
    have h := removeProcessByID_of_absent head id hid
    exact ⟨h, by rw [h]⟩
  · intro hpos pid hpid
    have h0 := getID_of_absent head pid hpid
    have hne : ∀ j ∈ head, j.id ≠ 0 := by
      intro j hj h
      have := hpos j hj
      omega
    have h : removeProcessByPID head pid = head := by
      unfold removeProcessByPID
      rw [h0]
      exact removeProcessByID_of_absent head 0 hne
    exact ⟨h0, hne, h, by rw [h]⟩

/-- Witness for C12: the id 7 and the pid 999 are carried by no job of the sample
table. -/
theorem remove_absent_noop_witness :
    (∀ j ∈ sampleTable, j.id ≠ 7) ∧ (∀ j ∈ sampleTable, 1 ≤ j.id) ∧
    (∀ j ∈ sampleTable, j.pid ≠ 999) ∧
    removeProcessByID sampleTable 7 = sampleTable ∧
    removeProcessByPID sampleTable 999 = sampleTable :=
  ⟨by decide, by decide, by decide,
    ((remove_absent_noop sampleTable).1 7 (by decide)).1,
    ((remove_absent_noop sampleTable).2 (by decide) 999 (by decide)).2.2.1⟩

/-! ## Lookups after a removal -/

theorem distinctIDs_of_reachable {head : proc_t} (h : Reachable head) : distinctIDs head :=
  (increasing_of_reachable h).1.imp (fun hab => ne_of_lt hab)

/-- In a table with pairwise distinct pids split at a job, no other job carries the
pid of that job. -/
theorem pids_ne_of_distinct (pre : proc_t) (j : procList) (post : proc_t)
    (hd : distinctPIDs (pre ++ j :: post)) : ∀ q ∈ pre ++ post, q.pid ≠ j.pid := by
  unfold distinctPIDs at hd
  rw [List.pairwise_append, List.pairwise_cons] at hd
  obtain ⟨-, ⟨hpost, -⟩, hcross⟩ := hd
  intro q hq
  rw [List.mem_append] at hq
  rcases hq with hq | hq
  · exact hcross q hq j (List.mem_cons_self _ _)
  · exact fun h => hpost q hq h.symm

/-- After `removeProcessByPID`, in a table with pairwise distinct ids that are not
0 and pairwise distinct pids, no job carries the pid. -/
theorem removeProcessByPID_absent (head : proc_t) (pid : Int) (hd : distinctIDs head)
    (hz : ∀ j ∈ head, j.id ≠ 0) (hp : distinctPIDs head) :
    ∀ q ∈ removeProcessByPID head pid, q.pid ≠ pid := by
  rcases split_at_pid head pid with hnone | ⟨pre, j, post, hsplit, hpre, hj⟩
  · have h : removeProcessByPID head pid = head := by
      unfold removeProcessByPID
      rw [getID_of_absent head pid hnone]
      exact removeProcessByID_of_absent head 0 hz
    rw [h]
    exact hnone
  · subst hsplit
    have hid := ids_ne_of_distinct pre j post hd
    have hpid := pids_ne_of_distinct pre j post hp
    have h : removeProcessByPID (pre ++ j :: post) pid = pre ++ post := by
      unfold removeProcessByPID
      rw [getID_of_split pre j post pid hpre hj]
      exact removeProcessByID_of_split pre j post j.id
        (fun q hq => hid q (List.mem_append_left _ hq)) rfl
    rw [h]
    intro q hq
    rw [← hj]
    exact hpid q hq

/-- After `removeProcessByID`, in a table with pairwise distinct ids, no job carries
the id. -/
theorem removeProcessByID_absent (head : proc_t) (id : Int) (hd : distinctIDs head) :
    ∀ q ∈ removeProcessByID head id, q.id ≠ id := by
  rcases split_at_id head id with hnone | ⟨pre, j, post, hsplit, hpre, hj⟩
  · rw [removeProcessByID_of_absent head id hnone]
    exact hnone
  · subst hsplit
    rw [removeProcessByID_of_split pre j post id hpre hj]
    intro q hq
    rw [← hj]
    exact ids_ne_of_distinct pre j post hd q hq

/-- C13 (amended): in a table reachable from the empty table, after
`removeProcessByID(id)` the call `getPID(id)` returns 0; and when the pids of the
table are pairwise distinct, after `removeProcessByPID(pid)` the call
`getProcessStatusByPID(pid)` returns `UNDEFINED` and `getID(pid)` returns 0. -/
theorem lookup_after_removal (head : proc_t) (h : Reachable head) :
    (∀ pid : Int, distinctPIDs head →
      (getProcessStatusByPID (removeProcessByPID head pid) pid).1 = state.UNDEFINED ∧
      getID (removeProcessByPID head pid) pid = 0) ∧
    (∀ id : Int, getPID (removeProcessByID head id) id = 0) := by
  have hd := distinctIDs_of_reachable h
  have hz : ∀ j ∈ head, j.id ≠ 0 := by
    intro j hj h0
    have := (increasing_of_reachable h).2 j hj
    omega
  constructor
  · intro pid hp
    have habs := removeProcessByPID_absent head pid hd hz hp
    exact ⟨statusLoop_of_absent _ pid habs, getID_of_absent _ pid habs⟩
  · intro id
    exact getPID_of_absent _ id (removeProcessByID_absent head id hd)

/-- Witness for C13: the two jobs of the scenario, with the pids 100 and 101. -/
theorem lookup_after_removal_witness :
    Reachable scenarioRun ∧ distinctPIDs scenarioRun ∧
    (getProcessStatusByPID (removeProcessByPID scenarioRun 100) 100).1 = state.UNDEFINED ∧
    getID (removeProcessByPID scenarioRun 100) 100 = 0 ∧
    getPID (removeProcessByID scenarioRun 1) 1 = 0 :=
  ⟨Reachable.add _ _ _ _ _ (Reachable.add _ _ _ _ _ Reachable.init), by decide,
    ((lookup_after_removal scenarioRun
      (Reachable.add _ _ _ _ _ (Reachable.add _ _ _ _ _ Reachable.init))).1 100 (by decide)).1,
    ((lookup_after_removal scenarioRun
      (Reachable.add _ _ _ _ _ (Reachable.add _ _ _ _ _ Reachable.init))).1 100 (by decide)).2,
    (lookup_after_removal scenarioRun
      (Reachable.add _ _ _ _ _ (Reachable.add _ _ _ _ _ Reachable.init))).2 1⟩

/-- Counterexample to C13 as stated: two jobs added with the same pid 100 make a
reachable table in which, after `removeProcessByPID(100)`, the second job is still
found by its pid. -/
theorem lookup_after_removal_same_pid_counterexample :
    Reachable samePidRun ∧
    (getProcessStatusByPID (removeProcessByPID samePidRun 100) 100).1 = state.ACTIVE ∧
    (getProcessStatusByPID (removeProcessByPID samePidRun 100) 100).1 ≠ state.UNDEFINED ∧
    getID (removeProcessByPID samePidRun 100) 100 = 2 ∧
    getID (removeProcessByPID samePidRun 100) 100 ≠ 0 :=
  ⟨Reachable.add _ _ _ _ _ (Reachable.add _ _ _ _ _ Reachable.init),
    by decide, by decide, by decide, by decide⟩

/-! ## Successive additions -/

theorem addProcess_fst (head : proc_t) (pid : Int) (status : state) (c0 : String)
    (cs : List String) (now : timeval) :
    (addProcess head pid status c0 cs now).1
      = head ++ [createProcess (addProcess head pid status c0 cs now).2 pid status c0 cs now] := by
  cases head <;> rfl

theorem addProcess_snd_nil (pid : Int) (status : state) (c0 : String)
    (cs : List String) (now : timeval) : (addProcess [] pid status c0 cs now).2 = 1 := rfl

theorem addProcess_snd_of_getLast (head : proc_t) (q : procList) (pid : Int) (status : state)
    (c0 : String) (cs : List String) (now : timeval) (hq : head.getLast? = some q) :
    (addProcess head pid status c0 cs now).2 = q.id + 1 := by
  cases head with
  | nil => simp at hq
  | cons first next =>
    rw [lastNode_eq] at hq
    cases hq
    rfl

/-- A run of additions on a table of `m` jobs whose tail job, if there is one,
carries the id `m`. -/
theorem addMany_from (calls : List addCall) (head : proc_t) (m : Nat)
    (hlen : head.length = m) (hlast : ∀ q, head.getLast? = some q → q.id = m) :
    (addMany head calls).2 = (List.range' (m + 1) calls.length).map Int.ofNat ∧
    (addMany head calls).1.map (fun j => j.id)
      = head.map (fun j => j.id) ++ (List.range' (m + 1) calls.length).map Int.ofNat := by
  induction calls generalizing head m with
  | nil => simp [addMany]
  | cons a as ih =>
    have hid : (addProcess head a.pid a.status a.c0 a.cs a.now).2 = ((m + 1 : Nat) : Int) := by
      cases hh : head.getLast? with
      | none =>
        rw [List.getLast?_eq_none_iff] at hh
        subst hh
        simp only [List.length_nil] at hlen
        subst hlen
        rfl
      | some q =>
        rw [addProcess_snd_of_getLast head q _ _ _ _ _ hh, hlast q hh]
        push_cast
        rfl
    have hfst := addProcess_fst head a.pid a.status a.c0 a.cs a.now
    have hlen2 : (addProcess head a.pid a.status a.c0 a.cs a.now).1.length = m + 1 := by
      rw [hfst, List.length_append, hlen]
      rfl
    have hlast2 : ∀ q, (addProcess head a.pid a.status a.c0 a.cs a.now).1.getLast? = some q →
        q.id = ((m + 1 : Nat) : Int) := by
      intro q hq
      rw [hfst, List.getLast?_append_of_ne_nil _ (List.cons_ne_nil _ _)] at hq
      simp only [List.getLast?_singleton, Option.some.injEq] at hq
      rw [← hq]
      exact hid
    obtain ⟨h1, h2⟩ := ih _ (m + 1) hlen2 hlast2
    constructor
    · show (addProcess head a.pid a.status a.c0 a.cs a.now).2 :: _ = _
      rw [h1, hid]
      rfl
    · show (addMany (addProcess head a.pid a.status a.c0 a.cs a.now).1 as).1.map _ = _
      rw [h2]
      conv_lhs => rw [hfst]
      rw [List.map_append, List.append_assoc]
      show _ ++ ((addProcess head a.pid a.status a.c0 a.cs a.now).2 :: _) = _
      rw [hid]
      rfl

/-- C14: for a run of `n` calls of `addProcess` on the empty table with nothing in
between, whatever their arguments, the ids returned are 1, 2, ..., n in the order
of the calls (the call number `k + 1` returns `k + 1`), `lengthProcList` is then
`n` and the ids stored are 1, 2, ..., n in table order. -/
theorem addMany_ids (calls : List addCall) :
    (addMany initProcList calls).2 = (List.range' 1 calls.length).map Int.ofNat ∧
    (∀ k, k < calls.length → (addMany initProcList calls).2[k]? = some ((k : Int) + 1)) ∧
    lengthProcList (addMany initProcList calls).1 = calls.length ∧
    (addMany initProcList calls).1.map (fun j => j.id)
      = (List.range' 1 calls.length).map Int.ofNat ∧
    (addMany initProcList [⟨100, state.ACTIVE, "sleep", ["100"], ⟨1000, 0⟩⟩,
        ⟨101, state.ACTIVE, "ls", ["-la"], ⟨2000, 0⟩⟩,
        ⟨102, state.SUSPENDED, "top", [], ⟨3000, 0⟩⟩]).2 = [1, 2, 3] := by
  obtain ⟨h1, h2⟩ := addMany_from calls initProcList 0 rfl (fun q hq => by simp [initProcList] at hq)
  have h2 : (addMany initProcList calls).1.map (fun j => j.id)
      = (List.range' 1 calls.length).map Int.ofNat := by
    rw [h2]
    rfl
  refine ⟨h1, ?_, ?_, h2, by decide⟩
  · intro k hk
    rw [h1, List.getElem?_map, List.getElem?_range' _ _ hk]
    simp
    omega
  · rw [lengthProcList_eq]
    have := congrArg List.length h2
    simp only [List.length_map, List.length_range'] at this
    rw [this]

/-! ## Recency: ties -/

/-- Invariant of the scan of `getLastTwoProcesses` on the places of the two jobs
held: every job before the holder of a slot is strictly older than it and no job
after it is strictly newer, the holder of the first slot being left out for the
second slot. -/
theorem lastTwoLoop_first (l : proc_t) (hd : distinctIDs l)
    (ht : ∀ p ∈ l, timercmp_gt p.time timerclear = true) :
    (l ≠ [] → ∃ (pre : proc_t) (p : procList) (post : proc_t), l = pre ++ p :: post ∧
        p.id = (lastTwoLoop l lastTwoInit).lastID ∧
        p.time = (lastTwoLoop l lastTwoInit).lastTime ∧
        (∀ q ∈ pre, timercmp_gt p.time q.time = true) ∧
        (∀ q ∈ post, timercmp_gt q.time p.time = false)) ∧
    (2 ≤ l.length → ∃ (pre : proc_t) (q : procList) (post : proc_t), l = pre ++ q :: post ∧
        q.id = (lastTwoLoop l lastTwoInit).previousID ∧
        q.time = (lastTwoLoop l lastTwoInit).previousTime ∧
        q.id ≠ (lastTwoLoop l lastTwoInit).lastID ∧
        (∀ r ∈ pre, r.id ≠ (lastTwoLoop l lastTwoInit).lastID →
          timercmp_gt q.time r.time = true) ∧
        (∀ r ∈ post, r.id ≠ (lastTwoLoop l lastTwoInit).lastID →
          timercmp_gt r.time q.time = false)) := by
  induction l using List.reverseRecOn with
  | nil => simp
  | append_singleton l a ih =>
    unfold distinctIDs at hd
    have hdl : distinctIDs l := (List.pairwise_append.mp hd).1
    have hda : ∀ q ∈ l, q.id ≠ a.id :=
      fun q hq => (List.pairwise_append.mp hd).2.2 q hq a (List.mem_singleton_self a)
    have hta : timercmp_gt a.time timerclear = true := ht a (by simp)
    have htl : ∀ p ∈ l, timercmp_gt p.time timerclear = true := fun p hp => ht p (by simp [hp])
    obtain ⟨h0, -, h2, -⟩ := lastTwoLoop_inv l hdl htl
    obtain ⟨H1, H3⟩ := ih hdl htl
    rw [lastTwoLoop_append]
    generalize lastTwoLoop l lastTwoInit = s at h0 h2 H1 H3
    by_cases hne : l = []
    · subst hne
      have hs := h0 rfl
      subst hs
      rw [lastTwoStep_of_gt _ _ (by simpa [lastTwoInit] using hta)]
      exact ⟨fun _ => ⟨[], a, [], rfl, rfl, rfl, by simp, by simp⟩, fun hlen => by simp at hlen⟩
    · obtain ⟨pre, p, post, hl, hpid, hptime, hbefore, hafter⟩ := H1 hne
      have hp : p ∈ l := by rw [hl]; simp
      have hsplit : l ++ [a] = pre ++ p :: (post ++ [a]) := by rw [hl]; simp
      by_cases hgt : timercmp_gt a.time s.lastTime = true
      · rw [lastTwoStep_of_gt _ _ hgt]
        have hap : timercmp_gt a.time p.time = true := hptime ▸ hgt
        have hall : ∀ q ∈ l, timercmp_gt a.time q.time = true := by
          intro q hq
          rw [hl, List.mem_append, List.mem_cons] at hq
          rcases hq with hq | hq | hq
          · exact timercmp_gt_trans hap (hbefore q hq)
          · rw [hq]; exact hap
          · exact timercmp_gt_of_gt_of_not_gt hap (hafter q hq)
        constructor
        · intro _
          exact ⟨l, a, [], rfl, rfl, rfl, hall, by simp⟩
        · intro _
          refine ⟨pre, p, post ++ [a], hsplit, hpid, hptime, hda p hp, ?_, ?_⟩
          · intro r hr _
            exact hbefore r hr
          · intro r hr hrid
            rw [List.mem_append, List.mem_singleton] at hr
            rcases hr with hr | hr
            · exact hafter r hr
            · exact absurd (by rw [hr]) hrid
      · have hgt : timercmp_gt a.time s.lastTime = false := by simpa using hgt
        have hid : a.id ≠ s.lastID := by
          rw [← hpid]
          exact fun h => hda p hp h.symm
        have hafter2 : ∀ q ∈ post ++ [a], timercmp_gt q.time p.time = false := by
          intro q hq
          rw [List.mem_append, List.mem_singleton] at hq
          rcases hq with hq | hq
          · exact hafter q hq
          · rw [hq, hptime]; exact hgt
        by_cases hgt2 : timercmp_gt a.time s.previousTime = true
        · rw [lastTwoStep_of_not_gt_of_gt _ _ hgt hid hgt2]
          constructor
          · intro _
            exact ⟨pre, p, post ++ [a], hsplit, hpid, hptime, hbefore, hafter2⟩
          · intro _
            refine ⟨l, a, [], rfl, rfl, rfl, hid, ?_, by simp⟩
            intro r hr hrid
            by_cases hlen : 2 ≤ l.length
            · obtain ⟨pre2, q, post2, hl2, hqid, hqtime, hqne, hqb, hqa⟩ := H3 hlen
              have haq : timercmp_gt a.time q.time = true := hqtime ▸ hgt2
              rw [hl2, List.mem_append, List.mem_cons] at hr
              rcases hr with hr | hr | hr
              · exact timercmp_gt_trans haq (hqb r hr hrid)
              · rw [hr]; exact haq
              · exact timercmp_gt_of_gt_of_not_gt haq (hqa r hr hrid)
            · exfalso
              have hlen1 : l.length = 1 := by
                have := List.length_pos.mpr hne
                omega
              obtain ⟨x, hx⟩ := List.length_eq_one.mp hlen1
              rw [hx, List.mem_singleton] at hr hp
              rw [hr, ← hp] at hrid
              exact hrid hpid
        · have hgt2 : timercmp_gt a.time s.previousTime = false := by simpa using hgt2
          rw [lastTwoStep_of_not_gt_of_not_gt _ _ hgt hgt2]
          have hlen : 2 ≤ l.length := by
            by_contra hlen
            have := (h2 (by omega)).2
            rw [this, hta] at hgt2
            exact Bool.noConfusion hgt2
          obtain ⟨pre2, q, post2, hl2, hqid, hqtime, hqne, hqb, hqa⟩ := H3 hlen
          constructor
          · intro _
            exact ⟨pre, p, post ++ [a], hsplit, hpid, hptime, hbefore, hafter2⟩
          · intro _
            refine ⟨pre2, q, post2 ++ [a], by rw [hl2]; simp, hqid, hqtime, hqne, hqb, ?_⟩
            intro r hr hrid
            rw [List.mem_append, List.mem_singleton] at hr
            rcases hr with hr | hr
            · exact hqa r hr hrid
            · rw [hr, hqtime]; exact hgt2

/-- In a table with pairwise distinct ids two jobs with the same id are the same
job. -/
theorem eq_of_id_eq (l : proc_t) (hd : distinctIDs l) (p q : procList) (hp : p ∈ l)
    (hq : q ∈ l) (h : p.id = q.id) : p = q := by
  induction l with
  | nil => exact absurd hp (List.not_mem_nil p)
  | cons c l ih =>
    unfold distinctIDs at hd
    rw [List.pairwise_cons] at hd
    rw [List.mem_cons] at hp hq
    rcases hp with hp | hp <;> rcases hq with hq | hq
    · rw [hp, hq]
    · exact absurd (by rw [← hp, h]) (hd.1 q hq)
    · exact absurd (by rw [← hq, h]) (hd.1 p hp)
    · exact ih hd.2 hp hq

theorem lastTwoStep_lastID_of_not_gt (s : lastTwo) (a : procList)
    (h : timercmp_gt a.time s.lastTime = false) : (lastTwoStep s a).lastID = s.lastID := by
  by_cases hc : a.id ≠ s.lastID ∧ timercmp_gt a.time s.previousTime = true
  · simp [lastTwoStep, h, hc]
  · simp only [lastTwoStep, h, if_neg hc]
    simp

/-- C15: in a table with pairwise distinct ids and timestamps above the cleared
value, `lastID` is the id of the first job in table order among those with the
maximal timestamp (every job before it is strictly older, no job after it is
strictly newer), and `previousID` is the id of the first job in table order among
those with the maximal timestamp once the job of `lastID` is left out. A job
appended with the timestamp of the job of `lastID` leaves `lastID` as it is, and a
job appended with the timestamp of the job of `previousID` leaves both as they
are. -/
theorem getLastTwoProcesses_tie_break (head : proc_t) (hd : distinctIDs head)
    (ht : ∀ p ∈ head, timercmp_gt p.time timerclear = true) :
    (head ≠ [] → ∃ (pre : proc_t) (p : procList) (post : proc_t), head = pre ++ p :: post ∧
        p.id = (getLastTwoProcesses head).1 ∧
        (∀ q ∈ pre, timercmp_gt p.time q.time = true) ∧
        (∀ q ∈ post, timercmp_gt q.time p.time = false)) ∧
    (2 ≤ head.length → ∃ (pre : proc_t) (q : procList) (post : proc_t),
        head = pre ++ q :: post ∧
        q.id = (getLastTwoProcesses head).2 ∧ q.id ≠ (getLastTwoProcesses head).1 ∧
        (∀ r ∈ pre, r.id ≠ (getLastTwoProcesses head).1 → timercmp_gt q.time r.time = true) ∧
        (∀ r ∈ post, r.id ≠ (getLastTwoProcesses head).1 →
          timercmp_gt r.time q.time = false)) ∧
    (∀ (a p : procList), p ∈ head → p.id = (getLastTwoProcesses head).1 → a.time = p.time →
        (getLastTwoProcesses (head ++ [a])).1 = (getLastTwoProcesses head).1) ∧
    (∀ (a q : procList), 2 ≤ head.length → q ∈ head → q.id = (getLastTwoProcesses head).2 →
        a.time = q.time → getLastTwoProcesses (head ++ [a]) = getLastTwoProcesses head) := by
  obtain ⟨-, h1, -, h3⟩ := lastTwoLoop_inv head hd ht
  obtain ⟨H1, H3⟩ := lastTwoLoop_first head hd ht
  refine ⟨?_, ?_, ?_, ?_⟩
  · intro hne
    obtain ⟨pre, p, post, hl, hpid, -, hb, ha⟩ := H1 hne
    exact ⟨pre, p, post, hl, hpid, hb, ha⟩
  · intro hlen
    obtain ⟨pre, q, post, hl, hqid, -, hqne, hb, ha⟩ := H3 hlen
    exact ⟨pre, q, post, hl, hqid, hqne, hb, ha⟩
  · intro a p hp hpid hat
    have hne : head ≠ [] := List.ne_nil_of_mem hp
    obtain ⟨p2, hp2, hpid2, hptime2, -⟩ := h1 hne
    have hpp : p = p2 := eq_of_id_eq head hd p p2 hp hp2 (hpid.trans hpid2.symm)
    have hgt : timercmp_gt a.time (lastTwoLoop head lastTwoInit).lastTime = false := by
      rw [hat, hpp, hptime2]
      exact timercmp_gt_irrefl _
    show (lastTwoLoop (head ++ [a]) lastTwoInit).lastID = (lastTwoLoop head lastTwoInit).lastID
    rw [lastTwoLoop_append]
    exact lastTwoStep_lastID_of_not_gt _ _ hgt
  · intro a q hlen hq hqid hat
    have hne : head ≠ [] := List.ne_nil_of_mem hq
    obtain ⟨p2, hp2, hpid2, hptime2, hmax⟩ := h1 hne
    obtain ⟨q2, hq2, hqid2, hqtime2, -, -⟩ := h3 hlen
    have hqq : q = q2 := eq_of_id_eq head hd q q2 hq hq2 (hqid.trans hqid2.symm)
    have hgt : timercmp_gt a.time (lastTwoLoop head lastTwoInit).lastTime = false := by
      rw [hat, ← hptime2]
      exact hmax q hq
    have hgt2 : timercmp_gt a.time (lastTwoLoop head lastTwoInit).previousTime = false := by
      rw [hat, hqq, hqtime2]
      exact timercmp_gt_irrefl _
    unfold getLastTwoProcesses
    rw [lastTwoLoop_append, lastTwoStep_of_not_gt_of_not_gt _ _ hgt hgt2]

/-- Witness for C15: the first of the three jobs sharing the latest timestamp holds
the first slot, the third job holds the second slot, and the fourth job, appended
with the same timestamp, displaces neither. -/
theorem getLastTwoProcesses_tie_break_witness :
    distinctIDs tieTable ∧ (∀ p ∈ tieTable, timercmp_gt p.time timerclear = true) ∧
    getLastTwoProcesses tieTable = (1, 3) ∧
    (∃ (pre : proc_t) (p : procList) (post : proc_t), tieTable = pre ++ p :: post ∧
        p.id = (getLastTwoProcesses tieTable).1 ∧
        (∀ q ∈ pre, timercmp_gt p.time q.time = true) ∧
        (∀ q ∈ post, timercmp_gt q.time p.time = false)) ∧
    getLastTwoProcesses (tieTable ++ [⟨5, 104, state.ACTIVE, "e &", ⟨9, 0⟩⟩])
      = getLastTwoProcesses tieTable :=
  ⟨by decide, by decide, by decide,
    (getLastTwoProcesses_tie_break tieTable (by decide) (by decide)).1 (by decide),
    (getLastTwoProcesses_tie_break tieTable (by decide) (by decide)).2.2.2
      ⟨5, 104, state.ACTIVE, "e &", ⟨9, 0⟩⟩ ⟨3, 102, state.ACTIVE, "c &", ⟨9, 0⟩⟩
      (by decide) (by decide) (by decide) (by decide)⟩

/-! ## Status changes and the state `DONE` -/

theorem setProcessStatusByPID_append_of_absent (pre l : proc_t) (pid : Int) (status : state)
    (now : timeval) (hpre : ∀ q ∈ pre, q.pid ≠ pid) :
    setProcessStatusByPID (pre ++ l) pid status now
      = pre ++ setProcessStatusByPID l pid status now := by
  induction pre with
  | nil => rfl
  | cons c pre ih =>
    rw [List.cons_append, setProcessStatusByPID, if_neg (hpre c (List.mem_cons_self _ _)),
      ih (fun q hq => hpre q (List.mem_cons_of_mem _ hq)), List.cons_append]

theorem setProcessStatusByPID_append_of_present (pre l : proc_t) (pid : Int) (status : state)
    (now : timeval) (hpre : ∃ q ∈ pre, q.pid = pid) :
    setProcessStatusByPID (pre ++ l) pid status now
      = setProcessStatusByPID pre pid status now ++ l := by
  induction pre with
  | nil =>
    obtain ⟨q, hq, -⟩ := hpre
    exact absurd hq (List.not_mem_nil q)
  | cons c pre ih =>
    by_cases hc : c.pid = pid
    · rw [List.cons_append, setProcessStatusByPID, if_pos hc, setProcessStatusByPID, if_pos hc,
        List.cons_append]
    · have hrest : ∃ q ∈ pre, q.pid = pid := by
        obtain ⟨q, hq, hqp⟩ := hpre
        rw [List.mem_cons] at hq
        rcases hq with hq | hq
        · exact absurd (hq ▸ hqp) hc
        · exact ⟨q, hq, hqp⟩
      rw [List.cons_append, setProcessStatusByPID, if_neg hc, ih hrest, setProcessStatusByPID,
        if_neg hc, List.cons_append]

theorem setProcessStatusByPID_length (l : proc_t) (pid : Int) (status : state) (now : timeval) :
    (setProcessStatusByPID l pid status now).length = l.length := by
  have h := congrArg List.length (setProcessStatusByPID_ids l pid status now)
  simpa using h

/-- What `setProcessStatusByPID` leaves at the place of a job `j` of the table: `j`
with the new state and timestamp when `j` is the first job carrying the pid, and
`j` itself otherwise. -/
theorem setProcessStatusByPID_at (pre : proc_t) (j : procList) (post : proc_t) (pid : Int)
    (status : state) (now : timeval) :
    ∃ (pre2 : proc_t) (j2 : procList) (post2 : proc_t),
      setProcessStatusByPID (pre ++ j :: post) pid status now = pre2 ++ j2 :: post2 ∧
      pre2.length = pre.length ∧
      ((j.pid = pid ∧ ∀ q ∈ pre, q.pid ≠ pid) →
        j2 = ⟨j.id, j.pid, status, j.commandName, now⟩) ∧
      (¬ (j.pid = pid ∧ ∀ q ∈ pre, q.pid ≠ pid) → j2 = j) := by
  by_cases hpre : ∀ q ∈ pre, q.pid ≠ pid
  · by_cases hj : j.pid = pid
    · exact ⟨pre, ⟨j.id, j.pid, status, j.commandName, now⟩, post,
        setProcessStatusByPID_of_split pre j post pid status now hpre hj, rfl,
        fun _ => rfl, fun hn => absurd ⟨hj, hpre⟩ hn⟩
    · refine ⟨pre, j, setProcessStatusByPID post pid status now, ?_, rfl,
        fun hsel => absurd hsel.1 hj, fun _ => rfl⟩
      rw [setProcessStatusByPID_append_of_absent pre _ pid status now hpre,
        setProcessStatusByPID, if_neg hj]
  · have hex : ∃ q ∈ pre, q.pid = pid := by
      by_contra hno
      exact hpre (fun q hq hqp => hno ⟨q, hq, hqp⟩)
    exact ⟨setProcessStatusByPID pre pid status now, j, post,
      setProcessStatusByPID_append_of_present pre _ pid status now hex,
      setProcessStatusByPID_length pre pid status now,
      fun hsel => absurd hsel.2 hpre, fun _ => rfl⟩

/-- C16 (amended): for a job `j` of a table whose state is `DONE`, after
`setProcessStatusByPID` called with a pid and a target state the job at the place
of `j` is `j` itself, still `DONE`, unless `j` is the first job carrying the pid, in
which case it is `j` with the target state and the clock value; the same holds of
`setProcessStatusByID` with the pid that `getPID` gives for the id. The functions
do not test the state a job is in. -/
theorem done_job_after_status_call (pre : proc_t) (j : procList) (post : proc_t)
    (pid id : Int) (status : state) (now : timeval) (hdone : j.state = state.DONE) :
    (∃ (pre2 : proc_t) (j2 : procList) (post2 : proc_t),
      setProcessStatusByPID (pre ++ j :: post) pid status now = pre2 ++ j2 :: post2 ∧
      pre2.length = pre.length ∧
      ((j.pid = pid ∧ ∀ q ∈ pre, q.pid ≠ pid) →
        j2 = ⟨j.id, j.pid, status, j.commandName, now⟩ ∧ j2.state = status) ∧
      (¬ (j.pid = pid ∧ ∀ q ∈ pre, q.pid ≠ pid) → j2 = j ∧ j2.state = state.DONE)) ∧
    (∃ (pre2 : proc_t) (j2 : procList) (post2 : proc_t),
      setProcessStatusByID (pre ++ j :: post) id status now = pre2 ++ j2 :: post2 ∧
      pre2.length = pre.length ∧
      ((j.pid = getPID (pre ++ j :: post) id ∧ ∀ q ∈ pre, q.pid ≠ getPID (pre ++ j :: post) id) →
        j2 = ⟨j.id, j.pid, status, j.commandName, now⟩ ∧ j2.state = status) ∧
      (¬ (j.pid = getPID (pre ++ j :: post) id ∧
          ∀ q ∈ pre, q.pid ≠ getPID (pre ++ j :: post) id) →
        j2 = j ∧ j2.state = state.DONE)) := by
  constructor
  · obtain ⟨pre2, j2, post2, h1, h2, h3, h4⟩ := setProcessStatusByPID_at pre j post pid status now
    refine ⟨pre2, j2, post2, h1, h2, ?_, ?_⟩
    · intro hsel
      have := h3 hsel
      exact ⟨this, by rw [this]⟩
    · intro hsel
      have := h4 hsel
      exact ⟨this, by rw [this]; exact hdone⟩
  · obtain ⟨pre2, j2, post2, h1, h2, h3, h4⟩ :=
      setProcessStatusByPID_at pre j post (getPID (pre ++ j :: post) id) status now
    refine ⟨pre2, j2, post2, h1, h2, ?_, ?_⟩
    · intro hsel
      have := h3 hsel
      exact ⟨this, by rw [this]⟩
    · intro hsel
      have := h4 hsel
      exact ⟨this, by rw [this]; exact hdone⟩

/-- Witness for C16: in the scenario with job 1 done, a call for the pid 101 leaves
job 1 done. -/
theorem done_job_after_status_call_witness :
    (⟨1, 100, state.DONE, "sleep 100 &", ⟨4000, 0⟩⟩ : procList).state = state.DONE ∧
    (∃ (pre2 : proc_t) (j2 : procList) (post2 : proc_t),
      setProcessStatusByPID
        ([] ++ (⟨1, 100, state.DONE, "sleep 100 &", ⟨4000, 0⟩⟩ : procList)
          :: [⟨2, 101, state.ACTIVE, "ls -la &", ⟨2000, 0⟩⟩])
        101 state.SUSPENDED ⟨5000, 0⟩ = pre2 ++ j2 :: post2 ∧
      pre2.length = ([] : proc_t).length ∧
      (((⟨1, 100, state.DONE, "sleep 100 &", ⟨4000, 0⟩⟩ : procList).pid = 101 ∧
          ∀ q ∈ ([] : proc_t), q.pid ≠ 101) →
        j2 = ⟨1, 100, state.SUSPENDED, "sleep 100 &", ⟨5000, 0⟩⟩ ∧
        j2.state = state.SUSPENDED) ∧
      (¬ ((⟨1, 100, state.DONE, "sleep 100 &", ⟨4000, 0⟩⟩ : procList).pid = 101 ∧
          ∀ q ∈ ([] : proc_t), q.pid ≠ 101) →
        j2 = ⟨1, 100, state.DONE, "sleep 100 &", ⟨4000, 0⟩⟩ ∧ j2.state = state.DONE)) ∧
    (setProcessStatusByPID scenarioDoneTable 101 state.SUSPENDED ⟨5000, 0⟩).map
      (fun q => q.state) = [state.DONE, state.SUSPENDED] :=
  ⟨rfl,
    (done_job_after_status_call [] ⟨1, 100, state.DONE, "sleep 100 &", ⟨4000, 0⟩⟩
      [⟨2, 101, state.ACTIVE, "ls -la &", ⟨2000, 0⟩⟩] 101 1 state.SUSPENDED ⟨5000, 0⟩ rfl).1,
    by decide⟩

/-- Counterexample to C16 as stated: in the scenario with job 1 done, a call of
`setProcessStatusByPID` for its pid, or of `setProcessStatusByID` for its id, moves
job 1 from `DONE` to the target state. -/
theorem done_job_left_counterexample :
    scenarioDoneTable.map (fun q => q.state) = [state.DONE, state.ACTIVE] ∧
    (setProcessStatusByPID scenarioDoneTable 100 state.ACTIVE ⟨5000, 0⟩).map
      (fun q => q.state) = [state.ACTIVE, state.ACTIVE] ∧
    (setProcessStatusByID scenarioDoneTable 1 state.SUSPENDED ⟨5000, 0⟩).map
      (fun q => q.state) = [state.SUSPENDED, state.ACTIVE] := by
  refine ⟨by decide, by decide, by decide⟩

/-! ## The state `UNDEFINED` -/

theorem mem_setProcessStatusByPID (l : proc_t) (pid : Int) (status : state) (now : timeval) :
    ∀ q ∈ setProcessStatusByPID l pid status now, q ∈ l ∨ q.state = status := by
  induction l with
  | nil => exact fun q hq => absurd hq (List.not_mem_nil q)
  | cons c next ih =>
    intro q hq
    rw [setProcessStatusByPID] at hq
    split_ifs at hq with hc
    · rw [List.mem_cons] at hq
      rcases hq with hq | hq
      · right; rw [hq]
      · left; exact List.mem_cons_of_mem _ hq
    · rw [List.mem_cons] at hq
      rcases hq with hq | hq
      · left; rw [hq]; exact List.mem_cons_self _ _
      · rcases ih q hq with h | h
        · left; exact List.mem_cons_of_mem _ h
        · right; exact h

/-- No job is stored in the state `UNDEFINED` when no call passes it. -/
theorem defined_of_reachableDefined {head : proc_t} (h : ReachableDefined head) :
    ∀ j ∈ head, j.state ≠ state.UNDEFINED := by
  induction h with
  | init => exact fun j hj => absurd hj (List.not_mem_nil j)
  | @add head pid status c0 cs now hs _ ih =>
    intro j hj
    rw [addProcess_fst, List.mem_append, List.mem_singleton] at hj
    rcases hj with hj | hj
    · exact ih j hj
    · rw [hj]; exact hs
  | @removeByID head id _ ih =>
    exact fun j hj => ih j ((removeProcessByID_sublist head id).subset hj)
  | @removeByPID head pid _ ih =>
    exact fun j hj => ih j ((removeProcessByID_sublist head (getID head pid)).subset hj)
  | @setByPID head pid status now hs _ ih =>
    intro j hj
    rcases mem_setProcessStatusByPID head pid status now j hj with h | h
    · exact ih j h
    · rw [h]; exact hs
  | @setByID head id status now hs _ ih =>
    intro j hj
    rcases mem_setProcessStatusByPID head (getPID head id) status now j hj with h | h
    · exact ih j h
    · rw [h]; exact hs
  | @update head _ ih =>
    exact fun j hj => ih j ((updateProcList_sublist head).subset hj)

/-- C17 (amended): in every table reachable from the empty table by calls of
`addProcess`, `setProcessStatusByPID`, `setProcessStatusByID`, `removeProcessByID`,
`removeProcessByPID` and `updateProcList` in which no status argument is
`UNDEFINED`, the other arguments being arbitrary, no stored job has the state
`UNDEFINED`, and `getProcessStatusByPID` returns `UNDEFINED` exactly when no job
carries the pid. -/
theorem undefined_never_stored (head : proc_t) (h : ReachableDefined head) :
    (∀ j ∈ head, j.state ≠ state.UNDEFINED) ∧
    (∀ pid : Int, (getProcessStatusByPID head pid).1 = state.UNDEFINED ↔
      ∀ j ∈ head, j.pid ≠ pid) := by
  have hdef := defined_of_reachableDefined h
  refine ⟨hdef, ?_⟩
  intro pid
  constructor
  · intro hu
    rcases split_at_pid head pid with hnone | ⟨pre, j, post, hsplit, hpre, hj⟩
    · exact hnone
    · exfalso
      have hst : statusLoop head pid = j.state := by
        rw [hsplit]
        exact statusLoop_of_split pre j post pid hpre hj
      have hu2 : statusLoop head pid = state.UNDEFINED := hu
      rw [hst] at hu2
      exact hdef j (by rw [hsplit]; simp) hu2
  · intro hnone
    exact statusLoop_of_absent head pid hnone

/-- Witness for C17: the two additions of the scenario are made with the status
`ACTIVE`. -/
theorem undefined_never_stored_witness :
    ReachableDefined scenarioRun ∧ (∀ j ∈ scenarioRun, j.state ≠ state.UNDEFINED) ∧
    ((getProcessStatusByPID scenarioRun 555).1 = state.UNDEFINED ↔
      ∀ j ∈ scenarioRun, j.pid ≠ 555) :=
  ⟨ReachableDefined.add _ _ _ _ _ (by decide)
      (ReachableDefined.add _ _ _ _ _ (by decide) ReachableDefined.init),
    (undefined_never_stored scenarioRun
      (ReachableDefined.add _ _ _ _ _ (by decide)
        (ReachableDefined.add _ _ _ _ _ (by decide) ReachableDefined.init))).1,
    (undefined_never_stored scenarioRun
      (ReachableDefined.add _ _ _ _ _ (by decide)
        (ReachableDefined.add _ _ _ _ _ (by decide) ReachableDefined.init))).2 555⟩

/-- Counterexample to C17 as stated: one call of `addProcess` with the status
`UNDEFINED` gives a reachable table that stores a job in that state, for whose pid
`getProcessStatusByPID` returns `UNDEFINED` although the pid is tracked. -/
theorem undefined_stored_counterexample :
    Reachable undefinedRun ∧
    undefinedRun.map (fun q => (q.pid, q.state)) = [(100, state.UNDEFINED)] ∧
    (getProcessStatusByPID undefinedRun 100).1 = state.UNDEFINED ∧
    ¬ (∀ j ∈ undefinedRun, j.state ≠ state.UNDEFINED) ∧
    ¬ (∀ j ∈ undefinedRun, j.pid ≠ 100) :=
  ⟨Reachable.add _ _ _ _ _ Reachable.init, by decide, by decide, by decide, by decide⟩

/-! ## Order of the ids -/

/-- C18: in every table reachable from the empty table the ids are strictly
increasing in table order; hence the tail job carries the largest id, and the id
returned by a call of `addProcess` is strictly greater than every id present. -/
theorem reachable_ids_increasing (head : proc_t) (h : Reachable head) :
    head.Pairwise (fun a b => a.id < b.id) ∧
    (∀ q, head.getLast? = some q → ∀ j ∈ head, j.id ≤ q.id) ∧
    (∀ (pid : Int) (status : state) (c0 : String) (cs : List String) (now : timeval),
      ∀ j ∈ head, j.id < (addProcess head pid status c0 cs now).2) := by
  have hs := (increasing_of_reachable h).1
  have hlast : ∀ q, head.getLast? = some q → ∀ j ∈ head, j.id ≤ q.id := by
    intro q hq
    cases head with
    | nil => simp at hq
    | cons first next =>
      rw [lastNode_eq] at hq
      cases hq
      exact le_lastNode first next hs
  refine ⟨hs, hlast, ?_⟩
  intro pid status c0 cs now j hj
  cases hh : head.getLast? with
  | none =>
    rw [List.getLast?_eq_none_iff] at hh
    rw [hh] at hj
    exact absurd hj (List.not_mem_nil j)
  | some q =>
    rw [addProcess_snd_of_getLast head q _ _ _ _ _ hh]
    have := hlast q hh j hj
    omega

/-- Witness for C18: after two additions, the removal of job 1 and a third
addition the ids are 2 and 3, and a further addition returns 4. -/
theorem reachable_ids_increasing_witness :
    Reachable removalRun ∧ removalRun.map (fun q => q.id) = [2, 3] ∧
    removalRun.Pairwise (fun a b => a.id < b.id) ∧
    (addProcess removalRun 103 state.ACTIVE "cat" [] ⟨4000, 0⟩).2 = 4 :=
  ⟨Reachable.add _ _ _ _ _ (Reachable.removeByID _
      (Reachable.add _ _ _ _ _ (Reachable.add _ _ _ _ _ Reachable.init))),
    by decide,
    (reachable_ids_increasing removalRun (Reachable.add _ _ _ _ _ (Reachable.removeByID _
      (Reachable.add _ _ _ _ _ (Reachable.add _ _ _ _ _ Reachable.init))))).1,
    by decide⟩

/-! ## Status by id -/

/-- C19: in a table whose ids are pairwise distinct and whose pids are pairwise
distinct and not 0, `setProcessStatusByID` called with an id that no job carries
leaves the table as it is (`getPID` gives 0, which is the pid of no job), and
called with the id of a job it replaces that job, the only one with the id, by the
same job with the given state and the clock value, and changes nothing else. -/
theorem setProcessStatusByID_frame (head : proc_t) (id : Int) (status : state)
    (now : timeval) (hd : distinctIDs head) (hp : distinctPIDs head)
    (hz : ∀ j ∈ head, j.pid ≠ 0) :
    ((∀ j ∈ head, j.id ≠ id) ∧ getPID head id = 0 ∧
      setProcessStatusByID head id status now = head) ∨
    ∃ (pre : proc_t) (j : procList) (post : proc_t),
      head = pre ++ j :: post ∧ j.id = id ∧ (∀ q ∈ pre ++ post, q.id ≠ id) ∧
      getPID head id = j.pid ∧
      setProcessStatusByID head id status now
        = pre ++ ⟨j.id, j.pid, status, j.commandName, now⟩ :: post := by
  rcases split_at_id head id with hnone | ⟨pre, j, post, hsplit, hpre, hj⟩
  · left
    have h0 := getPID_of_absent head id hnone
    refine ⟨hnone, h0, ?_⟩
    unfold setProcessStatusByID
    rw [h0]
    exact setProcessStatusByPID_of_absent head 0 status now hz
  · right
    subst hsplit
    have hpid := getPID_of_split pre j post id hpre hj
    have hne := ids_ne_of_distinct pre j post hd
    have hpne := pids_ne_of_distinct pre j post hp
    refine ⟨pre, j, post, rfl, hj, ?_, hpid, ?_⟩
    · intro q hq
      rw [← hj]
      exact hne q hq
    · unfold setProcessStatusByID
      rw [hpid]
      exact setProcessStatusByPID_of_split pre j post j.pid status now
        (fun q hq => hpne q (List.mem_append_left _ hq)) rfl

/-- Witness for C19: job 2 of the sample table is suspended by its id. -/
theorem setProcessStatusByID_frame_witness :
    distinctIDs sampleTable ∧ distinctPIDs sampleTable ∧ (∀ j ∈ sampleTable, j.pid ≠ 0) ∧
    setProcessStatusByID sampleTable 2 state.SUSPENDED ⟨20, 0⟩
      = [⟨1, 100, state.ACTIVE, "a &", ⟨5, 0⟩⟩, ⟨2, 101, state.SUSPENDED, "b &", ⟨20, 0⟩⟩,
         ⟨3, 102, state.DONE, "c &", ⟨7, 0⟩⟩] ∧
    (((∀ j ∈ sampleTable, j.id ≠ 8) ∧ getPID sampleTable 8 = 0 ∧
        setProcessStatusByID sampleTable 8 state.SUSPENDED ⟨20, 0⟩ = sampleTable) ∨
      ∃ (pre : proc_t) (j : procList) (post : proc_t),
        sampleTable = pre ++ j :: post ∧ j.id = 8 ∧ (∀ q ∈ pre ++ post, q.id ≠ 8) ∧
        getPID sampleTable 8 = j.pid ∧
        setProcessStatusByID sampleTable 8 state.SUSPENDED ⟨20, 0⟩
          = pre ++ ⟨j.id, j.pid, state.SUSPENDED, j.commandName, ⟨20, 0⟩⟩ :: post) :=
  ⟨by decide, by decide, by decide, by decide,
    setProcessStatusByID_frame sampleTable 8 state.SUSPENDED ⟨20, 0⟩ (by decide) (by decide)
      (by decide)⟩

/-! ## Reaping twice -/

/-- C20: for a table with pairwise distinct ids, after one call of `updateProcList`
no job in the state `DONE` is left, and a second call made at once writes nothing
and leaves the table as it is. -/
theorem updateProcList_idempotent (head : proc_t) (hd : distinctIDs head) :
    (∀ j ∈ (updateProcList head).1, j.state ≠ state.DONE) ∧
    (updateProcList (updateProcList head).1).2 = "" ∧
    (updateProcList (updateProcList head).1).1 = (updateProcList head).1 := by
  have h1 : (updateProcList head).1 = head.filter (fun j => decide (j.state ≠ state.DONE)) := by
    have := updateLoop_table (getLastTwoProcesses head).1 (getLastTwoProcesses head).2 head [] ""
      (by simpa using hd)
    simpa [updateProcList] using this
  have hnone : ∀ j ∈ (updateProcList head).1, j.state ≠ state.DONE := by
    intro j hj
    rw [h1, List.mem_filter] at hj
    simpa using hj.2
  have hd2 : distinctIDs (updateProcList head).1 :=
    List.Pairwise.sublist (updateProcList_sublist head) hd
  refine ⟨hnone, ?_, ?_⟩
  · unfold updateProcList
    rw [updateLoop_output, String.empty_append]
    have hfil : ((updateProcList head).1).filter (fun j => decide (j.state = state.DONE)) = [] := by
      rw [List.filter_eq_nil_iff]
      intro j hj
      simpa using hnone j hj
    unfold updateProcList at hfil
    rw [hfil]
    rfl
  · have := updateLoop_table (getLastTwoProcesses (updateProcList head).1).1
      (getLastTwoProcesses (updateProcList head).1).2 (updateProcList head).1 [] ""
      (by simpa using hd2)
    have h2 : (updateProcList (updateProcList head).1).1
        = ((updateProcList head).1).filter (fun j => decide (j.state ≠ state.DONE)) := by
      simpa [updateProcList] using this
    rw [h2, List.filter_eq_self]
    intro j hj
    simpa using hnone j hj

/-- Witness for C20: the sample table, whose third job is done. -/
theorem updateProcList_idempotent_witness :
    distinctIDs sampleTable ∧
    (updateProcList sampleTable).1.map (fun q => q.id) = [1, 2] ∧
    (updateProcList sampleTable).2 = "[3]-  Done\t\t      c &\n" ∧
    (updateProcList (updateProcList sampleTable).1).2 = "" ∧
    (updateProcList (updateProcList sampleTable).1).1 = (updateProcList sampleTable).1 :=
  ⟨by decide, by decide, by decide,
    (updateProcList_idempotent sampleTable (by decide)).2.1,
    (updateProcList_idempotent sampleTable (by decide)).2.2⟩

end Minishell
